import Mathlib

/-
Verification development for the CodeMapVisualizer backend core
(scanner service, storage path resolver, atomic writer, and the three
language analyzers).  All definitions below are shallow embeddings of the
Python source under src/backend; each definition carries a comment naming
the source function it embeds.  Strings are handled at the character-list
level with helpers that implement the exact Python string-method /
regex-match semantics the source relies on (ASCII character classes; the
sources under test only ever match ASCII-relevant classes).
-/

namespace CodeMap

/-! ### Character classes and low-level string helpers (Python semantics) -/

/-- Python whitespace class for str.strip / lstrip and the regex class \s
(ASCII portion). -/
def isSpaceChar (c : Char) : Bool :=
  c = ' ' || c = '\t' || c = '\n' || c = '\x0d' || c = '\x0b' || c = '\x0c'

/-- Python regex class \w (ASCII portion): letters, digits, underscore. -/
def isWordChar (c : Char) : Bool :=
  ('a' ≤ c && c ≤ 'z') || ('A' ≤ c && c ≤ 'Z') || ('0' ≤ c && c ≤ '9') || c = '_'

/-- Character class [a-zA-Z_] used by several of the source regexes. -/
def isAlphaUnd (c : Char) : Bool :=
  ('a' ≤ c && c ≤ 'z') || ('A' ≤ c && c ≤ 'Z') || c = '_'

/-- Character class [\w.] used in the MATLAB function-name regex. -/
def isWordDot (c : Char) : Bool :=
  isWordChar c || c = '.'

/-- Boolean prefix test on character lists (models str.startswith and
anchored regex literals). -/
def pfx : List Char → List Char → Bool
  | [], _ => true
  | _ :: _, [] => false
  | a :: as, b :: bs => a = b && pfx as bs

/-- Models Python str.startswith. -/
def startsWithStr (s p : String) : Bool :=
  pfx p.data s.data

/-- Models Python str.endswith. -/
def endsWithStr (s p : String) : Bool :=
  pfx p.data.reverse s.data.reverse

/-- Python str.lstrip with no argument. -/
def lstripChars (cs : List Char) : List Char :=
  cs.dropWhile isSpaceChar

/-- Python str.strip with no argument. -/
def trimChars (cs : List Char) : List Char :=
  ((cs.dropWhile isSpaceChar).reverse.dropWhile isSpaceChar).reverse

/-- Python single-character str.replace (the source only replaces
one-character substrings by one-character substrings). -/
def charReplace (a b : Char) (cs : List Char) : List Char :=
  cs.map (fun c => if c = a then b else c)

/-- Python str.lower (ASCII portion). -/
def lowerStr (s : String) : String :=
  String.mk (s.data.map Char.toLower)

/-- Python str.split with a one-character separator, first component only
(the source only ever uses split(sep)[0] and split(sep) index accesses). -/
def splitHeadChar (sep : Char) (cs : List Char) : List Char :=
  cs.takeWhile (fun c => c ≠ sep)

/-- Python str.split on a one-character separator, full result. -/
def splitOnChar (sep : Char) : List Char → List (List Char)
  | [] => [[]]
  | c :: t =>
    let rest := splitOnChar sep t
    if c = sep then [] :: rest
    else
      match rest with
      | [] => [[c]]
      | h :: r => (c :: h) :: r

/-- Lexicographic code-point comparison on character lists; this is the
order Python sorted() uses on strings. -/
def lexLe : List Char → List Char → Bool
  | [], _ => true
  | _ :: _, [] => false
  | a :: as, b :: bs =>
    if a.toNat = b.toNat then lexLe as bs else decide (a.toNat < b.toNat)

/-- Code-point order on strings (the order of Python sorted on str). -/
def strLe (a b : String) : Bool :=
  lexLe a.data b.data

/-- Insertion step of the sort modelling Python sorted(). -/
def insertSorted (x : String) : List String → List String
  | [] => [x]
  | y :: ys => if strLe x y then x :: y :: ys else y :: insertSorted x ys

/-- Sort modelling Python sorted() on a list of strings (code-point
ascending; on duplicate-free input any comparison sort agrees). -/
def sortStrings (l : List String) : List String :=
  l.foldr insertSorted []

/-- Set-accumulation: Python set.add iterated over a list, reified as an
insertion-ordered duplicate-free list. -/
def insertStr (x : String) (l : List String) : List String :=
  if x ∈ l then l else l ++ [x]

/-- Collapse duplicates keeping first occurrences (reifies a Python set
built by successive adds). -/
def dedupStr (l : List String) : List String :=
  l.foldl (fun acc x => insertStr x acc) []

/-- Join with a separator string (models sep.join(list)). -/
def joinSep (sep : String) : List String → String
  | [] => ""
  | [s] => s
  | s :: t => s ++ sep ++ joinSep sep t

/-! ### Association lists modelling Python dicts -/

/-- Python dict lookup d[k] / d.get(k). -/
def lookupKey {α : Type} (m : List (String × α)) (k : String) : Option α :=
  match m with
  | [] => none
  | (k', v) :: t => if k' = k then some v else lookupKey t k

/-- Python dict assignment d[k] = v: replace in place if the key exists,
append otherwise (insertion order preserved). -/
def setKey {α : Type} (m : List (String × α)) (k : String) (v : α) :
    List (String × α) :=
  match m with
  | [] => [(k, v)]
  | (k', v') :: t => if k' = k then (k', v) :: t else (k', v') :: setKey t k v

/-! ### JSON values (the persisted cache documents) -/

/-- JSON values, as produced by json.load on a prior cache file.  Objects
are insertion-ordered key-value lists, exactly like Python dicts. -/
inductive Json where
  | str (s : String)
  | num (n : Int)
  | boolean (b : Bool)
  | null
  | arr (xs : List Json)
  | obj (kvs : List (String × Json))

/-- Field access existingData[k] guarded by a Python containment test:
for a JSON object this is dict lookup; for any other JSON value the
source code path raises inside its try block and is caught, which is
observationally a missing key. -/
def Json.getKey : Json → String → Option Json
  | .obj kvs, k => lookupKey kvs k
  | _, _ => none

/-- A scanner document under construction (the Python dicts the parsers
return and scanFile mutates before writing). -/
abbrev Doc := List (String × Json)

/-! ### Analyzer dispatch (src/backend/app/utils/parsers/init, getParser) -/

inductive ParserKind where
  | python
  | matlab
  | cpp
deriving DecidableEq

/-- Embeds getParser: pure extension dispatch by str.endswith. -/
def getParser (filePath : String) : Option ParserKind :=
  if endsWithStr filePath ".py" then some .python
  else if endsWithStr filePath ".m" then some .matlab
  else if endsWithStr filePath ".cpp" || endsWithStr filePath ".h" then some .cpp
  else none

/-! ### Storage path resolver (ScannerService, field by field)

Paths are modelled as lists of components of an absolute, normalised
POSIX path (the result of os.path.normpath(os.path.abspath(p))); the
path separator is "/".  A component list is clean when no component is
empty, ".", or ".." — exactly the shape normpath output has for an
absolute path. -/

abbrev FPath := List String

/-- A normalised absolute path has nonempty components none of which are
the special entries "." or "..". -/
def cleanComps (p : FPath) : Prop :=
  ∀ c ∈ p, c ≠ "" ∧ c ≠ "." ∧ c ≠ ".."

instance (p : FPath) : Decidable (cleanComps p) := by
  unfold cleanComps; infer_instance

/-- Length of the common component prefix of two paths. -/
def commonLen : FPath → FPath → Nat
  | a :: as, b :: bs => if a = b then commonLen as bs + 1 else 0
  | _, _ => 0

/-- Components of os.path.relpath(target, root) on POSIX: parent-traversal
entries for the part of root past the common prefix, then the rest of
target. -/
def relComps (target root : FPath) : FPath :=
  let c := commonLen target root
  List.replicate (root.length - c) ".." ++ target.drop c

/-- The string os.path.relpath returns: "/"-joined components, or "." when
the two paths are equal. -/
def relString (rel : FPath) : String :=
  match rel with
  | [] => "."
  | _ => joinSep "/" rel

/-- The absolute-path string of a component list (POSIX form). -/
def absString (p : FPath) : String :=
  "/" ++ joinSep "/" p

/-- Sanitisation used on the absolute-path fallback branch of
_get_storage_path: replace the separator, literal dots and colons with
underscores. -/
def sanitizeAbs (target : FPath) : String :=
  String.mk (charReplace ':' '_' (charReplace '.' '_' (charReplace '/' '_' (absString target).data)))

/-- Sanitisation used on the relative branch of _get_storage_path:
replace the separator and literal dots with underscores. -/
def sanitizeRel (relStr : String) : String :=
  String.mk (charReplace '.' '_' (charReplace '/' '_' relStr.data))

/-- Embeds the filename computation of ScannerService._get_storage_path
when a root path is available (the branch the claims are about): the
relative path escapes to the absolute-derived name exactly when the
relative path STRING starts with "..". -/
def storageFilename (target root : FPath) : String :=
  if startsWithStr (relString (relComps target root)) ".." then
    "meta_" ++ sanitizeAbs target ++ ".json"
  else "meta_" ++ sanitizeRel (relString (relComps target root)) ++ ".json"

/-- The cache directory <root>/assets/.visualizer created by
_get_storage_path. -/
def storageDir (root : FPath) : FPath :=
  root ++ ["assets", ".visualizer"]

/-- The full resolved storage path of _get_storage_path. -/
def getStoragePath (target root : FPath) : FPath :=
  storageDir root ++ [storageFilename target root]

/-! ### Filesystem world and the atomic document writer -/

/-- Contents of a cache file on disk: either a value that parses as JSON
or bytes that do not (corrupt / torn / partially written). -/
inductive CacheFile where
  | valid (j : Json)
  | corrupt

/-- The fragment of filesystem state the scanner touches: which cache
directories exist and what each cache path holds. -/
structure World where
  dirs : List FPath
  files : FPath → Option CacheFile

/-- os.makedirs(d, exist_ok := True) guarded by os.path.exists. -/
def mkdirs (d : FPath) (dirs : List FPath) : List FPath :=
  if d ∈ dirs then dirs else d :: dirs

/-- Embeds ScannerService._write_json_atomic.  tmp is the fresh name
mkstemp picked in the target directory; serOk records whether json.dump
ran to completion.  mkstemp creates the (initially unparseable) temp
file; a successful dump fills it and os.replace renames it over the
target; a failed dump leaves the target alone, unlinks the temp file and
re-raises, reported by the Bool component (true = exception propagated). -/
def write_json_atomic (files : FPath → Option CacheFile) (tmp target : FPath)
    (doc : Json) (serOk : Bool) : (FPath → Option CacheFile) × Bool :=
  let files1 := fun p => if p = tmp then some CacheFile.corrupt else files p
  if serOk then
    let files2 := fun p => if p = tmp then some (CacheFile.valid doc) else files1 p
    let files3 := fun p =>
      if p = tmp then none else if p = target then some (CacheFile.valid doc) else files2 p
    (files3, false)
  else
    (fun p => if p = tmp then none else files1 p, true)

/-! ### Scan orchestrator (ScannerService.scanFile)

The analyzer run itself is a pure function of the source file, so it is
passed in as the Doc the dispatched parser returned; the comment-merge,
ordering of side effects and the returned document are embedded exactly
as in the source.  The atomic write is taken on its success path here
(its failure behaviour is the subject of write_json_atomic above). -/

/-- Embeds ScannerService.scanFile for a call with an explicit root:
resolve the storage path (creating the cache directory), dispatch,
return the error document on unknown extensions, otherwise merge prior
comments into the fresh parse and persist it. -/
def scanFile (w : World) (filePath : String) (target root : FPath)
    (parsedData : Doc) : Doc × World :=
  let outPath := getStoragePath target root
  let w1 : World := { w with dirs := mkdirs (storageDir root) w.dirs }
  match getParser filePath with
  | none => ([("error", Json.str "Unsupported file type")], w1)
  | some _ =>
    let d1 : Doc :=
      match w1.files outPath with
      | some (CacheFile.valid prior) =>
        match prior.getKey "comments" with
        | some c => setKey parsedData "comments" c
        | none => parsedData
      | _ => parsedData
    let d2 : Doc :=
      match lookupKey d1 "comments" with
      | some _ => d1
      | none => setKey d1 "comments" (Json.arr [])
    (d2, { w1 with files := fun p => if p = outPath then some (CacheFile.valid (Json.obj d2)) else w1.files p })

/-! ### Block-structured analyzer (src/backend/app/utils/parsers/matlab)

The parser is a single-pass line state machine; every regex the source
uses is embedded below as a deterministic scanner implementing the exact
match (including the one place where backtracking of a greedy \w+ before
a lookahead is observable). -/

/-- A recorded method entry of a MATLAB classDetails block.  propName
models the optional "property" dict entry present only for dotted
getter/setter names. -/
structure MMethod where
  name : String
  signature : String
  attributes : List String
  propName : Option String
deriving DecidableEq

/-- A recorded property entry of a MATLAB classDetails block. -/
structure MProp where
  name : String
  attributes : List String
deriving DecidableEq

/-- A classDetails entry being built or already completed. -/
structure MClass where
  name : String
  properties : List MProp
  methods : List MMethod
deriving DecidableEq

/-- The function-body tracker {funcStartLine, funcName, funcNestLevel}. -/
structure MTracker where
  start : Nat
  name : String
  depth : Nat
deriving DecidableEq

/-- The class currently being built together with the indentation of its
classdef line (classIndent). -/
structure MCur where
  info : MClass
  indent : Nat
deriving DecidableEq

/-- The mutable state of MatlabParser.parse, one field per Python local.
currentClass is the aliased object also present in classDetails; it is
represented here as cur, with done holding the earlier classDetails
entries, so that classDetails = done ++ cur at every step.  inProps
fuses inProperties with propsIndent (the indent is only ever read while
the flag is set). -/
structure MState where
  functions : List String
  signatures : List (String × String)
  definitions : List (String × String)
  locations : List (String × Nat)
  done : List MClass
  cur : Option MCur
  inProps : Option Nat
  tracker : Option MTracker
  allMethods : List String
  allProps : List String

def initMState : MState :=
  { functions := [], signatures := [], definitions := [], locations := []
    done := [], cur := none, inProps := none, tracker := none
    allMethods := [], allProps := [] }

/-- re.match on a single keyword followed by a \b boundary. -/
def kwBoundary (k : String) (code : String) : Bool :=
  pfx k.data code.data &&
    (match code.data.drop k.data.length with
     | [] => true
     | c :: _ => !isWordChar c)

/-- Embeds the block-opening test re.match on
(if|for|while|switch|try|parfor) with a trailing boundary. -/
def blockOpen (code : String) : Bool :=
  kwBoundary "if" code || kwBoundary "for" code || kwBoundary "while" code ||
  kwBoundary "switch" code || kwBoundary "try" code || kwBoundary "parfor" code

/-- Split a character list at the first occurrence of a character,
returning the remainder after it (models a greedy negated class followed
by that literal). -/
def afterChar (sep : Char) : List Char → Option (List Char)
  | [] => none
  | c :: t => if c = sep then some t else afterChar sep t

/-- Embeds the classdef regex: the literal "classdef", optional
whitespace, an optional parenthesised attribute group, optional
whitespace, then the captured \w+ class name. -/
def classdefName (code : String) : Option String :=
  if pfx "classdef".data code.data then
    let r1 := (code.data.drop 8).dropWhile isSpaceChar
    match r1 with
    | '(' :: t =>
      match afterChar ')' t with
      | some r2 =>
        let w := (r2.dropWhile isSpaceChar).takeWhile isWordChar
        if w = [] then none else some (String.mk w)
      | none => none
    | _ =>
      let w := r1.takeWhile isWordChar
      if w = [] then none else some (String.mk w)
  else none

/-- Capture group ([a-zA-Z_][\w.]*) at a position. -/
def captureIdentDot : List Char → Option String
  | [] => none
  | c :: t => if isAlphaUnd c then some (String.mk (c :: t.takeWhile isWordDot)) else none

/-- The \s*=\s* fragment of the function regex: optional spaces, a
literal equals sign, optional spaces; returns the rest on success. -/
def matchEq (cs : List Char) : Option (List Char) :=
  match cs.dropWhile isSpaceChar with
  | '=' :: t => some (t.dropWhile isSpaceChar)
  | _ => none

/-- Embeds the MATLAB function-definition regex
"function" \s+ (optional ([...]|\w+) \s*=\s*) ([a-zA-Z_][\w.]*): the
optional return-value group is tried first; if its tail fails to match,
the regex backtracks to skipping the group, capturing at the position
right after the mandatory whitespace. -/
def functionName (code : String) : Option String :=
  if pfx "function".data code.data then
    let rest := code.data.drop 8
    match rest with
    | [] => none
    | c :: _ =>
      if isSpaceChar c then
        let r1 := rest.dropWhile isSpaceChar
        let viaRet : Option String :=
          match r1 with
          | '[' :: t => (afterChar ']' t).bind (fun r2 => (matchEq r2).bind captureIdentDot)
          | _ =>
            let w := r1.takeWhile isWordChar
            if w = [] then none
            else (matchEq (r1.drop w.length)).bind captureIdentDot
        match viaRet with
        | some n => some n
        | none => captureIdentDot r1
      else none
  else none

/-- Keyword followed by (\s*$|\s*\(): end of line after optional spaces,
or an opening parenthesis after optional spaces. -/
def kwThenParenOrEnd (k : String) (code : String) : Bool :=
  pfx k.data code.data &&
    (let rest := code.data.drop k.data.length
     rest.all isSpaceChar || (match rest.dropWhile isSpaceChar with
                              | '(' :: _ => true
                              | _ => false))

/-- Embeds the properties-block opener regex. -/
def propBlockOpen (code : String) : Bool :=
  kwThenParenOrEnd "properties" code

/-- Embeds the methods/events/enumeration block opener regex. -/
def methodsBlockOpen (code : String) : Bool :=
  kwThenParenOrEnd "methods" code || kwThenParenOrEnd "events" code ||
  kwThenParenOrEnd "enumeration" code

/-- Leading identifier capture ^([a-zA-Z_]\w*). -/
def leadingIdent (code : String) : Option String :=
  match code.data with
  | [] => none
  | c :: t => if isAlphaUnd c then some (String.mk (c :: t.takeWhile isWordChar)) else none

/-- The keyword exclusion list of the property-line branch. -/
def mKeywordList : List String :=
  ["end", "properties", "methods", "events", "enumeration", "classdef", "function"]

/-- fullName.split(".")[-1] (or the name itself without a dot). -/
def lastDotComponent (s : String) : String :=
  match (splitOnChar '.' s.data).reverse with
  | [] => s
  | h :: _ => String.mk h

/-- fullName.split(".")[0]. -/
def firstDotComponent (s : String) : String :=
  String.mk (splitHeadChar '.' s.data)

/-- parts[1] if the split has at least two parts else parts[0]. -/
def secondDotComponent (s : String) : String :=
  match splitOnChar '.' s.data with
  | _ :: p2 :: _ => String.mk p2
  | p1 :: _ => String.mk p1
  | [] => s

/-- Whether a name contains a dot ("." in fullName). -/
def containsDot (s : String) : Bool :=
  s.data.any (fun c => c = '.')

/-- The per-line preprocessing of the loop: lstrip, indent count, blank
and comment-line skip, inline-comment strip plus strip(); returns none
for lines the loop skips entirely. -/
def lineCode (raw : String) : Option (Nat × String) :=
  let cs := raw.data
  let stripped := lstripChars cs
  let indent := cs.length - stripped.length
  if stripped = [] then none
  else if stripped.headD ' ' = '%' then none
  else
    let code := trimChars (splitHeadChar '%' stripped)
    if code = [] then none else some (indent, String.mk code)

/-- The verbatim slice "\n".join(lines[a : b+1]). -/
def sliceJoin (lines : List String) (a b : Nat) : String :=
  joinSep "\n" ((lines.drop a).take (b - a + 1))

/-- The function-body tracking block at the top of the loop body
(nest-depth bookkeeping and body capture on the closing end). -/
def bodyTrackStep (lines : List String) (i : Nat) (code : String) (st : MState) : MState :=
  match st.tracker with
  | some t =>
    if blockOpen code then
      { st with tracker := some { t with depth := t.depth + 1 } }
    else if code = "end" then
      if t.depth > 0 then { st with tracker := some { t with depth := t.depth - 1 } }
      else
        { st with definitions := setKey st.definitions t.name (sliceJoin lines t.start i)
                  tracker := none }
    else st
  | none => st

/-- The methods-list entry the method branch appends: the dotted
getter/setter form stores the dot component decomposition. -/
def methodEntry (code fullName : String) : MMethod :=
  if containsDot fullName then
    { name := fullName, signature := code
      attributes := [firstDotComponent fullName]
      propName := some (secondDotComponent fullName) }
  else
    { name := fullName, signature := code, attributes := [], propName := none }

/-- The name added to the method-name set: the last dotted component for
getter/setter forms, the name itself otherwise. -/
def methodBase (fullName : String) : String :=
  if containsDot fullName then lastDotComponent fullName else fullName

/-- The method-definition branch (branch 6) of the loop body. -/
def methodStep (i : Nat) (code : String) (c : MCur) (fullName : String) (st : MState) : MState :=
  { st with
      inProps := none
      tracker := some { start := i, name := fullName, depth := 0 }
      allMethods := insertStr (methodBase fullName) st.allMethods
      locations := setKey st.locations fullName (i + 1)
      cur := some { c with info :=
        { c.info with methods := c.info.methods ++ [methodEntry code fullName] } }
      signatures := setKey st.signatures fullName code }

/-- The property-line branch (branch 7) of the loop body. -/
def propLineStep (i : Nat) (code : String) (c : MCur) (st : MState) : MState :=
  match leadingIdent code with
  | some p =>
    if lowerStr p ∈ mKeywordList then st
    else if p ∈ c.info.properties.map MProp.name then st
    else
      { st with
          cur := some { c with info :=
            { c.info with properties := c.info.properties ++ [{ name := p, attributes := [] }] } }
          locations := setKey (setKey st.locations (c.info.name ++ "." ++ p) (i + 1)) p (i + 1)
          allProps := insertStr p st.allProps }
  | none => st

/-- The rest of the loop body after function-body tracking: classdef
start, class end, standalone functions, properties/methods blocks,
method definitions and property lines, in source order. -/
def mlineStep (i indent : Nat) (code : String) (st : MState) : MState :=
  match classdefName code with
  | some cname =>
    { st with
        done := st.done ++ (st.cur.map MCur.info).toList
        cur := some { info := { name := cname, properties := [], methods := [] }, indent := indent }
        signatures := setKey st.signatures cname code
        locations := setKey st.locations cname (i + 1) }
  | none =>
    match st.cur with
    | none =>
      match functionName code with
      | some f =>
        { st with
            functions := st.functions ++ [f]
            signatures := setKey st.signatures f code
            locations := setKey st.locations f (i + 1)
            tracker := some { start := i, name := f, depth := 0 }
            allMethods := insertStr f st.allMethods }
      | none => st
    | some c =>
      if code = "end" && decide (indent ≤ c.indent) then
        { st with done := st.done ++ [c.info], cur := none, inProps := none }
      else if propBlockOpen code then
        { st with inProps := some indent }
      else if (match st.inProps with
               | some pi => code = "end" && decide (indent ≤ pi)
               | none => false) then
        { st with inProps := none }
      else if methodsBlockOpen code then
        { st with inProps := none }
      else
        match functionName code with
        | some fullName => methodStep i code c fullName st
        | none =>
          match st.inProps with
          | some _ => propLineStep i code c st
          | none => st

/-- One full iteration of the parse loop for line i. -/
def mstep (lines : List String) (st : MState) (i : Nat) (raw : String) : MState :=
  match lineCode raw with
  | none => st
  | some (indent, code) => mlineStep i indent code (bodyTrackStep lines i code st)

/-- Run the line loop over the enumerated lines. -/
def mrun (lines : List String) : MState :=
  (lines.enum).foldl (fun st p => mstep lines st p.1 p.2) initMState

/-! Dependency extractor scanners (MatlabParser._extract_dependencies).
Each models one re.finditer pass; fuel equal to the input length bounds
the position scan. -/

/-- Case-insensitive literal prefix match, returning the rest. -/
def pfxCI : List Char → List Char → Option (List Char)
  | [], cs => some cs
  | _ :: _, [] => none
  | a :: as, b :: bs => if a.toLower = b.toLower then pfxCI as bs else none

/-- The (?:self|obj|this) alternation with IGNORECASE. -/
def selfAlt (cs : List Char) : Option (List Char) :=
  match pfxCI "self".data cs with
  | some r => some r
  | none =>
    match pfxCI "obj".data cs with
    | some r => some r
    | none => pfxCI "this".data cs

/-- One attempted match of (?:self|obj|this)\s*\.\s*(\w+)\s*\( at the
current position; on success returns the captured name and the rest of
the input after the consumed match. -/
def tryCallAt (cs : List Char) : Option (String × List Char) :=
  (selfAlt cs).bind fun r1 =>
    match r1.dropWhile isSpaceChar with
    | '.' :: r2 =>
      let r3 := r2.dropWhile isSpaceChar
      let w := r3.takeWhile isWordChar
      if w = [] then none
      else
        match (r3.drop w.length).dropWhile isSpaceChar with
        | '(' :: r4 => some (String.mk w, r4)
        | _ => none
    | _ => none

/-- re.finditer for the qualified-call pattern: leftmost matches, then
resume after each match. -/
def scanSelfCalls : Nat → List Char → List String
  | 0, _ => []
  | _ + 1, [] => []
  | fuel + 1, c :: t =>
    match tryCallAt (c :: t) with
    | some (n, rest) => n :: scanSelfCalls fuel rest
    | none => scanSelfCalls fuel t

/-- One attempted match of (?:self|obj|this)\s*\.\s*(\w+)(?!\s*\() at the
current position.  When the greedy \w+ is followed by \s*\( the engine
backtracks the capture by one character (which then satisfies the
negative lookahead, the following character being a word character);
a one-character capture cannot backtrack and the position fails. -/
def tryPropAt (cs : List Char) : Option (String × List Char) :=
  (selfAlt cs).bind fun r1 =>
    match r1.dropWhile isSpaceChar with
    | '.' :: r2 =>
      let r3 := r2.dropWhile isSpaceChar
      let w := r3.takeWhile isWordChar
      if w = [] then none
      else
        let rest := r3.drop w.length
        match rest.dropWhile isSpaceChar with
        | '(' :: _ =>
          if w.length ≥ 2 then
            some (String.mk (w.take (w.length - 1)), w.drop (w.length - 1) ++ rest)
          else none
        | _ => some (String.mk w, rest)
    | _ => none

/-- re.finditer for the property-access pattern. -/
def scanPropUses : Nat → List Char → List String
  | 0, _ => []
  | _ + 1, [] => []
  | fuel + 1, c :: t =>
    match tryPropAt (c :: t) with
    | some (n, rest) => n :: scanPropUses fuel rest
    | none => scanPropUses fuel t

/-- re.finditer for the direct-call pattern (?<![.\w])(\w+)\s*\(: a
maximal word run whose preceding character is neither a dot nor a word
character, followed by optional spaces and an opening parenthesis.  prev
is the character before the current position. -/
def scanDirectCalls : Nat → Option Char → List Char → List String
  | 0, _, _ => []
  | _ + 1, _, [] => []
  | fuel + 1, prev, c :: t =>
    let okPrev := match prev with
                  | none => true
                  | some p => !(isWordDot p)
    if okPrev && isWordChar c then
      let w := c :: t.takeWhile isWordChar
      let rest := t.drop (w.length - 1)
      match rest.dropWhile isSpaceChar with
      | '(' :: r2 => String.mk w :: scanDirectCalls fuel (some '(') r2
      | _ => scanDirectCalls fuel (some c) t
    else scanDirectCalls fuel (some c) t

/-- The control-flow keyword exclusion of the direct-call loop. -/
def directCallExcluded : List String :=
  ["if", "for", "while", "switch", "try", "catch", "function", "end"]

/-- One dependencies entry {calls, uses_properties}. -/
structure MDeps where
  calls : List String
  uses_properties : List String
deriving DecidableEq

/-- Embeds MatlabParser._extract_dependencies: two call passes and one
property pass over a captured body, set-accumulated, filtered against the
known names, self-calls excluded, each output list sorted. -/
def extract_dependencies (body : String) (allMethods allProps : List String)
    (current : String) : MDeps :=
  let cs := body.data
  let c1 := (scanSelfCalls cs.length cs).filter
    (fun n => allMethods.contains n && n ≠ current)
  let c2 := (scanDirectCalls cs.length none cs).filter
    (fun n => allMethods.contains n && n ≠ current && !(directCallExcluded.contains (lowerStr n)))
  let u1 := (scanPropUses cs.length cs).filter (fun n => allProps.contains n)
  { calls := sortStrings (dedupStr (c1 ++ c2))
    uses_properties := sortStrings (dedupStr u1) }

/-- The structural document MatlabParser.parse returns. -/
structure MDoc where
  functions : List String
  classes : List String
  classDetails : List MClass
  signatures : List (String × String)
  definitions : List (String × String)
  dependencies : List (String × MDeps)
  locations : List (String × Nat)
deriving DecidableEq

/-- The dependency pass at the end of MatlabParser.parse: analyse each
captured definition, keeping only entries with at least one call or
property use. -/
def buildDependencies (allMethods allProps : List String)
    (m : List (String × MDeps)) (defs : List (String × String)) :
    List (String × MDeps) :=
  defs.foldl
    (fun m p =>
      let d := extract_dependencies p.2 allMethods allProps p.1
      if d.calls.isEmpty && d.uses_properties.isEmpty then m else setKey m p.1 d)
    m

/-- Embeds MatlabParser.parse on the splitlines of the file content: run
the line state machine, then the dependency pass over every captured
definition, dropping entries with neither calls nor property uses. -/
def matlabParse (lines : List String) : MDoc :=
  let st := mrun lines
  let deps := buildDependencies st.allMethods st.allProps [] st.definitions
  { functions := st.functions
    classes := []
    classDetails := st.done ++ (st.cur.map MCur.info).toList
    signatures := st.signatures
    definitions := st.definitions
    dependencies := deps
    locations := st.locations }

/-! ### Python-like analyzer (src/backend/app/utils/parsers/python)

The host AST (ast.parse output) is modelled by the node data the parser
reads: names, 1-based line numbers, column offsets, decorator nodes,
argument lists and annotation / return-annotation strings (annotations
enter the signature only through ast.unparse, so they are carried as the
unparsed strings).  The traversal, signature reconstruction, source-span
slicing and decorator-skipping line correction are embedded from the
source. -/

/-- A decorator node as _get_decorators inspects it: a bare Name, an
Attribute, a Call whose func is a Name or an Attribute, or anything
else (contributing nothing). -/
inductive PyDec where
  | nameDec (s : String)
  | attrDec (s : String)
  | callName (s : String)
  | callAttr (s : String)
  | otherDec
deriving DecidableEq

/-- One positional argument with its optional unparsed annotation. -/
structure PyArg where
  arg : String
  ann : Option String
deriving DecidableEq

/-- A FunctionDef / AsyncFunctionDef node (the fields the parser reads). -/
structure PyFunc where
  name : String
  lineno : Nat
  endLineno : Nat
  colOffset : Nat
  endColOffset : Nat
  decoratorList : List PyDec
  args : List PyArg
  vararg : Option String
  kwarg : Option String
  returns : Option String
  isAsync : Bool
deriving DecidableEq

/-- An assignment target: a bare Name or anything else. -/
inductive PyTarget where
  | nameT (s : String)
  | otherT
deriving DecidableEq

/-- A class-body statement as the class walk inspects it; nested classes
and all other statement kinds fall into otherItem. -/
inductive PyClassItem where
  | fnItem (f : PyFunc)
  | assignItem (targets : List PyTarget) (lineno : Nat)
  | otherItem
deriving DecidableEq

/-- A ClassDef node (the fields the parser reads). -/
structure PyClass where
  name : String
  lineno : Nat
  endLineno : Nat
  decoratorList : List PyDec
  body : List PyClassItem
deriving DecidableEq

/-- A top-level statement of the module body. -/
inductive PyNode where
  | fnNode (f : PyFunc)
  | clsNode (c : PyClass)
  | otherNode
deriving DecidableEq

/-- Embeds PythonParser._get_decorators. -/
def get_decorators (decs : List PyDec) : List String :=
  decs.foldr
    (fun d acc =>
      match d with
      | .nameDec s => s :: acc
      | .attrDec s => s :: acc
      | .callName s => s :: acc
      | .callAttr s => s :: acc
      | .otherDec => acc)
    []

/-- Embeds PythonParser._get_signature. -/
def get_signature (f : PyFunc) : String :=
  let argStrs := f.args.map (fun a =>
    match a.ann with
    | some t => a.arg ++ ": " ++ t
    | none => a.arg)
  let argStrs := argStrs ++ (match f.vararg with
                             | some v => ["*" ++ v]
                             | none => [])
  let argStrs := argStrs ++ (match f.kwarg with
                             | some v => ["**" ++ v]
                             | none => [])
  let sig := "def " ++ f.name ++ "(" ++ joinSep ", " argStrs ++ ")"
  match f.returns with
  | some r => sig ++ " -> " ++ r
  | none => sig

/-- Embeds ast.get_source_segment as PythonParser._get_source calls it:
the text from (lineno, colOffset) to (endLineno, endColOffset),
1-based lines, newline-joined. -/
def get_source (lines : List String) (l1 c1 l2 c2 : Nat) : String :=
  if l1 = l2 then
    String.mk ((((lines.getD (l1 - 1) "").data.drop c1).take (c2 - c1)))
  else
    let firstL := String.mk ((lines.getD (l1 - 1) "").data.drop c1)
    let mid := (lines.drop l1).take (l2 - 1 - l1)
    let lastL := String.mk ((lines.getD (l2 - 1) "").data.take c2)
    joinSep "\n" ([firstL] ++ mid ++ [lastL])

/-- The source text of a function node. -/
def funcSource (lines : List String) (f : PyFunc) : String :=
  get_source lines f.lineno f.colOffset f.endLineno f.endColOffset

/-- The regex ^\s*(async\s+)?(def|class)\s+ used by _find_def_lineno:
leading whitespace, an optional async keyword with mandatory trailing
whitespace, then def or class with mandatory trailing whitespace. -/
def defLineMatch (line : String) : Bool :=
  let r1 := line.data.dropWhile isSpaceChar
  let r2 :=
    if pfx "async".data r1 then
      let r := r1.drop 5
      match r with
      | c :: _ => if isSpaceChar c then r.dropWhile isSpaceChar else r1
      | [] => r1
    else r1
  let afterKw : Option (List Char) :=
    if pfx "def".data r2 then some (r2.drop 3)
    else if pfx "class".data r2 then some (r2.drop 5)
    else none
  match afterKw with
  | some (c :: _) => isSpaceChar c
  | _ => false

/-- Fuel-bounded forward scan; the fuel limit - start covers the whole
range, so this is the range loop of _find_def_lineno. -/
def firstDefLineAux (lines : List String) : Nat → Nat → Nat → Option Nat
  | 0, _, _ => none
  | fuel + 1, start, limit =>
    if start < limit then
      if start < lines.length then
        if defLineMatch (lines.getD start "") then some start
        else firstDefLineAux lines fuel (start + 1) limit
      else none
    else none

/-- The forward scan of _find_def_lineno: the first 0-based index i in
[start, limit) with i < lines.length whose line matches the keyword
regex (the loop breaks when i runs past the lines). -/
def firstDefLine (lines : List String) (start limit : Nat) : Option Nat :=
  firstDefLineAux lines (limit - start) start limit

/-- Embeds PythonParser._find_def_lineno for a node with the given
1-based lineno, end_lineno and decorator list. -/
def find_def_lineno (lines : List String) (lineno endLineno : Nat)
    (decs : List PyDec) : Nat :=
  if decs = [] then lineno
  else
    match firstDefLine lines (lineno - 1) endLineno with
    | some i => i + 1
    | none => lineno

/-- A method entry of the Python classDetails list. -/
structure PyMethodInfo where
  name : String
  attributes : List String
  signature : String
deriving DecidableEq

/-- A property entry of the Python classDetails list. -/
structure PyPropInfo where
  name : String
  attributes : List String
deriving DecidableEq

/-- A completed classDetails entry. -/
structure PyClassInfo where
  name : String
  properties : List PyPropInfo
  methods : List PyMethodInfo
deriving DecidableEq

/-- The accumulating output of PythonParser.parse. -/
structure PyAcc where
  functions : List String
  classes : List String
  classDetails : List PyClassInfo
  signatures : List (String × String)
  definitions : List (String × String)
  locations : List (String × Nat)
deriving DecidableEq

def initPyAcc : PyAcc :=
  { functions := [], classes := [], classDetails := []
    signatures := [], definitions := [], locations := [] }

/-- One class-level assignment target: a bare Name becomes a property of
the class and two locations entries (qualified and bare). -/
def processTarget (cname : String) (lineno : Nat) (acc : PyAcc × PyClassInfo)
    (t : PyTarget) : PyAcc × PyClassInfo :=
  match t with
  | .nameT x =>
    let ci := { acc.2 with properties := acc.2.properties ++
      [{ name := x, attributes := [] }] }
    let a := acc.1
    let a := { a with locations := setKey a.locations (cname ++ "." ++ x) lineno }
    let a := { a with locations := setKey a.locations x lineno }
    (a, ci)
  | .otherT => acc

/-- The walk over one class-body statement (methods and class-level
assignments), updating the maps and the classInfo under construction. -/
def processClassItem (lines : List String) (cname : String)
    (acc : PyAcc × PyClassInfo) (item : PyClassItem) : PyAcc × PyClassInfo :=
  match item with
  | .fnItem m =>
    let qualified := cname ++ "." ++ m.name
    let defLine := find_def_lineno lines m.lineno m.endLineno m.decoratorList
    let ci := { acc.2 with methods := acc.2.methods ++
      [{ name := m.name, attributes := get_decorators m.decoratorList
         signature := get_signature m }] }
    let a := acc.1
    let a := { a with signatures := setKey a.signatures m.name (get_signature m) }
    let a := { a with definitions := setKey a.definitions m.name (funcSource lines m) }
    let a := { a with definitions := setKey a.definitions qualified (funcSource lines m) }
    let a := { a with locations := setKey a.locations qualified defLine }
    let a := { a with locations := setKey a.locations m.name defLine }
    (a, ci)
  | .assignItem targets lineno =>
    targets.foldl (processTarget cname lineno) acc
  | .otherItem => acc

/-- The walk over one top-level module statement. -/
def processNode (lines : List String) (acc : PyAcc) (node : PyNode) : PyAcc :=
  match node with
  | .fnNode f =>
    let acc := { acc with functions := acc.functions ++ [f.name] }
    let acc := { acc with signatures := setKey acc.signatures f.name (get_signature f) }
    let acc := { acc with definitions := setKey acc.definitions f.name (funcSource lines f) }
    { acc with locations := (setKey acc.locations f.name
        (find_def_lineno lines f.lineno f.endLineno f.decoratorList)) }
  | .clsNode c =>
    let acc := { acc with classes := acc.classes ++ [c.name] }
    let acc := { acc with locations := (setKey acc.locations c.name
        (find_def_lineno lines c.lineno c.endLineno c.decoratorList)) }
    let start : PyClassInfo := { name := c.name, properties := [], methods := [] }
    let r := c.body.foldl (processClassItem lines c.name) (acc, start)
    { r.1 with classDetails := r.1.classDetails ++ [r.2] }
  | .otherNode => acc

/-- Embeds PythonParser.parse over the module body (tree.body) with the
splitlines of the file content. -/
def pythonParse (lines : List String) (tree : List PyNode) : PyAcc :=
  tree.foldl (processNode lines) initPyAcc

/-! ### Restricted C-like analyzer (src/backend/app/utils/parsers/cpp)

Two whole-file regex passes, embedded as position scanners with the
previous character carried for the \b lookbehind. -/

/-- One attempted match of \bclass\s+(\w+) at the current position
(the boundary test on the preceding character is done by the caller);
returns the captured name, the matched text, and the rest. -/
def tryClassAt (cs : List Char) : Option (String × List Char × List Char) :=
  if pfx "class".data cs then
    let r1 := cs.drop 5
    match r1 with
    | c :: _ =>
      if isSpaceChar c then
        let r2 := r1.dropWhile isSpaceChar
        let w := r2.takeWhile isWordChar
        if w = [] then none
        else
          let rest := r2.drop w.length
          some (String.mk w, cs.take (cs.length - rest.length), rest)
      else none
    | [] => none
  else none

/-- re.finditer pass for the class pattern, keeping the captured name and
the signature (the full matched text stripped). -/
def scanCppClassSigs : Nat → Option Char → List Char → List (String × String)
  | 0, _, _ => []
  | _ + 1, _, [] => []
  | fuel + 1, prev, c :: t =>
    let okPrev := match prev with
                  | none => true
                  | some p => !isWordChar p
    if okPrev then
      match tryClassAt (c :: t) with
      | some (n, matched, rest) =>
        (n, String.mk (trimChars matched)) ::
          scanCppClassSigs fuel (matched.getLast?) rest
      | none => scanCppClassSigs fuel (some c) t
    else scanCppClassSigs fuel (some c) t

/-- The primitive return-type keyword alternation of the function
pattern, in source order. -/
def cppTypeKeywords : List String :=
  ["void", "int", "float", "double", "bool", "string", "auto"]

/-- Try the keyword alternation at a position, returning the matched
keyword and the rest. -/
def cppTypeAt (cs : List Char) : Option (String × List Char) :=
  cppTypeKeywords.foldr
    (fun k acc => if pfx k.data cs then some (k, cs.drop k.data.length) else acc)
    none

/-- One attempted match of
\b(void|int|float|double|bool|string|auto)\s+(\w+)\s*\([^)]*\)\s*\{ at
the current position; returns the captured name, the characters the
whole match consumed, and the rest. -/
def tryFuncAt (cs : List Char) : Option (String × List Char × List Char) :=
  (cppTypeAt cs).bind fun p =>
    match p.2 with
    | c :: _ =>
      if isSpaceChar c then
        let r2 := p.2.dropWhile isSpaceChar
        let w := r2.takeWhile isWordChar
        if w = [] then none
        else
          match (r2.drop w.length).dropWhile isSpaceChar with
          | '(' :: r3 =>
            match afterChar ')' r3 with
            | some r4 =>
              match r4.dropWhile isSpaceChar with
              | '{' :: r5 =>
                let matched := cs.take (cs.length - r5.length)
                some (String.mk w, matched, r5)
              | _ => none
            | none => none
          | _ => none
      else none
    | [] => none

/-- re.finditer pass for the function pattern, keeping the name and the
signature (the full match with braces removed, stripped). -/
def scanCppFuncs : Nat → Option Char → List Char → List (String × String)
  | 0, _, _ => []
  | _ + 1, _, [] => []
  | fuel + 1, prev, c :: t =>
    let okPrev := match prev with
                  | none => true
                  | some p => !isWordChar p
    if okPrev then
      match tryFuncAt (c :: t) with
      | some (n, matched, rest) =>
        (n, String.mk (trimChars (matched.filter (fun ch => ch ≠ '{')))) ::
          scanCppFuncs fuel (some '{') rest
      | none => scanCppFuncs fuel (some c) t
    else scanCppFuncs fuel (some c) t

/-- The structural document CppParser.parse returns. -/
structure CppDoc where
  functions : List String
  classes : List String
  signatures : List (String × String)
deriving DecidableEq

/-- Embeds CppParser.parse: the class pass fills classes and their
signatures, then the function pass fills functions and theirs. -/
def cppParse (content : String) : CppDoc :=
  let cs := content.data
  let classMatches := scanCppClassSigs cs.length none cs
  let funcMatches := scanCppFuncs cs.length none cs
  let sigs1 := classMatches.foldl (fun m p => setKey m p.1 p.2) []
  let sigs2 := funcMatches.foldl (fun m p => setKey m p.1 p.2) sigs1
  { functions := funcMatches.map Prod.fst
    classes := classMatches.map Prod.fst
    signatures := sigs2 }

/-! ### Derived specification-level definitions used by the theorems -/

/-- The comments value the prior cache state at a path should contribute:
the comments field of a prior document that exists and parses as JSON,
and the empty sequence when the file is absent, corrupt, or lacks the
field. -/
def priorComments (w : World) (p : FPath) : Json :=
  match w.files p with
  | some (CacheFile.valid j) =>
    match j.getKey "comments" with
    | some c => c
    | none => Json.arr []
  | _ => Json.arr []

/-! Key-trace lists for the Python analyzer: the keys each node writes
into signatures / definitions, in write order, used to reason about
last-writer-wins overwriting. -/

/-- The definitions-map keys a class body writes, in order (for each
method the bare name then the Class.method qualified name). -/
def bodyDefKeys (cname : String) : List PyClassItem → List String
  | [] => []
  | .fnItem m :: t => m.name :: (cname ++ "." ++ m.name) :: bodyDefKeys cname t
  | _ :: t => bodyDefKeys cname t

/-- The bare-name subsequence of bodyDefKeys (the keys the class body
writes into signatures). -/
def bodyBareKeys : List PyClassItem → List String
  | [] => []
  | .fnItem m :: t => m.name :: bodyBareKeys t
  | _ :: t => bodyBareKeys t

/-- The qualified-name subsequence of bodyDefKeys. -/
def bodyQualKeys (cname : String) : List PyClassItem → List String
  | [] => []
  | .fnItem m :: t => (cname ++ "." ++ m.name) :: bodyQualKeys cname t
  | _ :: t => bodyQualKeys cname t

/-- The definitions-map keys one top-level node writes. -/
def nodeDefKeys : PyNode → List String
  | .fnNode f => [f.name]
  | .clsNode c => bodyDefKeys c.name c.body
  | .otherNode => []

/-- The bare-name keys one top-level node writes into signatures. -/
def nodeBareKeys : PyNode → List String
  | .fnNode f => [f.name]
  | .clsNode c => bodyBareKeys c.body
  | .otherNode => []

/-- The qualified keys one top-level node writes. -/
def nodeQualKeys : PyNode → List String
  | .fnNode _ => []
  | .clsNode c => bodyQualKeys c.name c.body
  | .otherNode => []

/-- All definitions-map keys the module writes, in write order. -/
def pyDefKeys : List PyNode → List String
  | [] => []
  | n :: t => nodeDefKeys n ++ pyDefKeys t

/-- All bare signature keys the module writes. -/
def pyBareKeys : List PyNode → List String
  | [] => []
  | n :: t => nodeBareKeys n ++ pyBareKeys t

/-- All qualified definition keys the module writes. -/
def pyQualKeys : List PyNode → List String
  | [] => []
  | n :: t => nodeQualKeys n ++ pyQualKeys t

/-- The locations-map keys an assignment target list writes, in order. -/
def targetsLocKeys (cname : String) : List PyTarget → List String
  | [] => []
  | .nameT x :: t => (cname ++ "." ++ x) :: x :: targetsLocKeys cname t
  | .otherT :: t => targetsLocKeys cname t

/-- The locations-map keys a class body writes, in order. -/
def bodyLocKeys (cname : String) : List PyClassItem → List String
  | [] => []
  | .fnItem m :: t => (cname ++ "." ++ m.name) :: m.name :: bodyLocKeys cname t
  | .assignItem targets _ :: t => targetsLocKeys cname targets ++ bodyLocKeys cname t
  | .otherItem :: t => bodyLocKeys cname t

/-- The locations-map keys one top-level node writes. -/
def nodeLocKeys : PyNode → List String
  | .fnNode f => [f.name]
  | .clsNode c => c.name :: bodyLocKeys c.name c.body
  | .otherNode => []

/-- All locations-map keys the module writes, in write order. -/
def pyLocKeys : List PyNode → List String
  | [] => []
  | n :: t => nodeLocKeys n ++ pyLocKeys t

/-- A decorated top-level function node whose AST-reported line points at
its first decorator line. -/
def c9func : PyFunc :=
  { name := "g", lineno := 1, endLineno := 3, colOffset := 0, endColOffset := 8
    decoratorList := [.nameDec "deco"], args := [], vararg := none, kwarg := none
    returns := none, isAsync := false }

/-- Lines of the decorated-function example. -/
def c9lines : List String := ["@deco", "def g():", "    pass"]

/-- Module body of the decorated-function example. -/
def c9tree : List PyNode := [.fnNode c9func]

/-- The method node of the Python counterexample source. -/
def c4method : PyFunc :=
  { name := "m", lineno := 2, endLineno := 3, colOffset := 2, endColOffset := 12
    decoratorList := [], args := [{ arg := "self", ann := none }]
    vararg := none, kwarg := none, returns := none, isAsync := false }

/-- The class node of the Python counterexample source. -/
def c4class : PyClass :=
  { name := "A", lineno := 1, endLineno := 3, decoratorList := []
    body := [.fnItem c4method] }

/-- Module body of the Python counterexample: a single class A with a
single method m. -/
def c4tree : List PyNode := [.clsNode c4class]

/-- Lines of the Python counterexample source. -/
def c4lines : List String := ["class A:", "  def m(self):", "    return 1"]

/-! Reachability of a symbol-map key through the name-bearing fields of
a structural document (the invariant of the specification, in both the
claimed form and the amended form). -/

/-- The classDetails entries of a MATLAB state at any point of the pass:
completed classes followed by the class under construction. -/
def curList (o : Option MCur) : List MClass :=
  (o.map MCur.info).toList

/-- classDetails of a MATLAB state. -/
def cds (st : MState) : List MClass :=
  st.done ++ curList st.cur

/-- A key is reachable through one MATLAB classDetails entry: it is the
class name, a method name, a property name, or the Class.property
qualified form. -/
def mClassReach (c : MClass) (k : String) : Prop :=
  k = c.name ∨ (∃ m ∈ c.methods, k = m.name) ∨ (∃ p ∈ c.properties, k = p.name) ∨
  (∃ p ∈ c.properties, k = c.name ++ "." ++ p.name)

instance (c : MClass) (k : String) : Decidable (mClassReach c k) := by
  unfold mClassReach; infer_instance

/-- Reachability over a MATLAB parser state. -/
def StReach (st : MState) (k : String) : Prop :=
  k ∈ st.functions ∨ ∃ c ∈ cds st, mClassReach c k

/-- Reachability over a finished MATLAB document (amended invariant:
functions, classes, and classDetails names, methods and properties,
qualified property keys included). -/
def MDocReach (d : MDoc) (k : String) : Prop :=
  k ∈ d.functions ∨ k ∈ d.classes ∨ ∃ c ∈ d.classDetails, mClassReach c k

instance (d : MDoc) (k : String) : Decidable (MDocReach d k) := by
  unfold MDocReach; infer_instance

/-- Reachability exactly as the claim states it: through functions,
classes, or classDetails method names (qualified method keys allowed). -/
def ClaimReach (d : MDoc) (k : String) : Prop :=
  k ∈ d.functions ∨ k ∈ d.classes ∨
  ∃ c ∈ d.classDetails, ∃ m ∈ c.methods, (k = m.name ∨ k = c.name ++ "." ++ m.name)

instance (d : MDoc) (k : String) : Decidable (ClaimReach d k) := by
  unfold ClaimReach; infer_instance

/-- A key is reachable through one Python classDetails entry (bare or
qualified method and property names, or the class name). -/
def pyClassReach (c : PyClassInfo) (k : String) : Prop :=
  k = c.name ∨ (∃ m ∈ c.methods, k = m.name ∨ k = c.name ++ "." ++ m.name) ∨
  (∃ p ∈ c.properties, k = p.name ∨ k = c.name ++ "." ++ p.name)

/-- Reachability over a Python analyzer document. -/
def PyReach (acc : PyAcc) (k : String) : Prop :=
  k ∈ acc.functions ∨ k ∈ acc.classes ∨ ∃ c ∈ acc.classDetails, pyClassReach c k

/-- The class-under-construction view of the accumulator used while a
class body is walked (the classInfo is appended on completion). -/
def withCls (acc : PyAcc) (ci : PyClassInfo) : PyAcc :=
  { acc with classDetails := acc.classDetails ++ [ci] }

/-- One MATLAB class grows into another: same name, methods and
properties preserved. -/
def clsLe (c c' : MClass) : Prop :=
  c.name = c'.name ∧ (∀ m ∈ c.methods, m ∈ c'.methods) ∧
  (∀ p ∈ c.properties, p ∈ c'.properties)

/-- One MATLAB state grows into another for reachability purposes. -/
def stLe (s s' : MState) : Prop :=
  (∀ f ∈ s.functions, f ∈ s'.functions) ∧
  (∀ c ∈ cds s, ∃ c' ∈ cds s', clsLe c c')

/-- The three key-reachability clauses plus the tracked-name clause that
the line loop of the MATLAB parser maintains. -/
def MInv (st : MState) : Prop :=
  (∀ k v, lookupKey st.signatures k = some v → StReach st k) ∧
  (∀ k v, lookupKey st.definitions k = some v → StReach st k) ∧
  (∀ k v, lookupKey st.locations k = some v → StReach st k) ∧
  (∀ t, st.tracker = some t → StReach st t.name)

/-- One Python classInfo grows into another. -/
def pyCiLe (c c' : PyClassInfo) : Prop :=
  c.name = c'.name ∧ (∀ m ∈ c.methods, m ∈ c'.methods) ∧
  (∀ p ∈ c.properties, p ∈ c'.properties)

/-- The key-reachability clauses the Python walk maintains. -/
def PyInv (acc : PyAcc) : Prop :=
  (∀ k v, lookupKey acc.signatures k = some v → PyReach acc k) ∧
  (∀ k v, lookupKey acc.definitions k = some v → PyReach acc k) ∧
  (∀ k v, lookupKey acc.locations k = some v → PyReach acc k)

/-- Sortedness in the code-point string order (the order Python sorted
produces). -/
def SortedStr (l : List String) : Prop :=
  List.Sorted (fun a b => strLe a b = true) l

/-- The block-structured source of the scenario in the specification:
classdef A with one property x and one method y reading obj.x. -/
def c5source : List String :=
  ["classdef A", "  properties", "    x", "  end", "  methods",
   "    function y(obj)", "      obj.x;", "    end", "  end", "end"]

/-! ### Theorems -/

theorem lookupKey_setKey {α : Type} (m : List (String × α)) (k a : String) (v : α) :
    lookupKey (setKey m k v) a = if k = a then some v else lookupKey m a := by
  induction m with
  | nil => simp [setKey, lookupKey]
  | cons h t ih =>
    obtain ⟨k', v'⟩ := h
    by_cases hk : k' = k
    · subst hk
      simp only [setKey, if_pos rfl, lookupKey]
      split <;> simp_all
    · simp only [setKey, if_neg hk, lookupKey]
      by_cases ha : k' = a
      · subst ha
        have : ¬ k = k' := fun h => hk h.symm
        simp [this]
      · simp [ha, ih]

/-- Claim C1.  For every supported file path and every prior state of the
cache file at the resolved storage path, scanFile returns a document
whose comments field equals the comments field of the prior persisted
document when that file exists, parses as JSON and contains a comments
key, and the empty sequence otherwise (absent, corrupt or unreadable
priors included, without raising); every other field of the returned
document is the fresh analyzer output's field. -/
theorem scanFile_comment_preservation
    (w : World) (filePath : String) (target root : FPath) (parsedData : Doc)
    (hsupp : (getParser filePath).isSome = true)
    (hnoc : lookupKey parsedData "comments" = none) :
    lookupKey (scanFile w filePath target root parsedData).1 "comments" =
      some (priorComments w (getStoragePath target root)) ∧
    ∀ k, k ≠ "comments" →
      lookupKey (scanFile w filePath target root parsedData).1 k =
        lookupKey parsedData k := by
  obtain ⟨pk, hpk⟩ := Option.isSome_iff_exists.mp hsupp
  unfold scanFile
  rw [hpk]
  simp only [priorComments]
  cases hf : w.files (getStoragePath target root) with
  | none =>
    simp only [hf, hnoc, lookupKey_setKey]
    refine ⟨by simp, fun k hk => ?_⟩
    rw [if_neg (fun h => hk h.symm)]
  | some cf =>
    cases cf with
    | corrupt =>
      simp only [hf, hnoc, lookupKey_setKey]
      refine ⟨by simp, fun k hk => ?_⟩
      rw [if_neg (fun h => hk h.symm)]
    | valid prior =>
      cases hc : prior.getKey "comments" with
      | none =>
        simp only [hf, hc, hnoc, lookupKey_setKey]
        refine ⟨by simp, fun k hk => ?_⟩
        rw [if_neg (fun h => hk h.symm)]
      | some c =>
        have hl : lookupKey (setKey parsedData "comments" c) "comments" = some c := by
          rw [lookupKey_setKey]; simp
        simp only [hf, hc, hl]
        refine ⟨trivial, fun k hk => ?_⟩
        rw [lookupKey_setKey, if_neg (fun h => hk h.symm)]

theorem scanFile_comment_preservation_witness :
    lookupKey
      (scanFile
        { dirs := [], files := fun _ => none }
        "demo.py" ["proj", "demo.py"] ["proj"]
        [("type", Json.str "python")]).1 "comments" =
      some (priorComments { dirs := [], files := fun _ => none }
        (getStoragePath ["proj", "demo.py"] ["proj"])) :=
  (scanFile_comment_preservation
    { dirs := [], files := fun _ => none } "demo.py" ["proj", "demo.py"] ["proj"]
    [("type", Json.str "python")] (by decide) (by rfl)).1

/-- Claim C2.  If serialization fails at any point during the atomic
write, the failure is propagated, the temporary file is removed, and the
previously persisted content at the target path is unchanged; on success
the target path holds exactly the serialized document. -/
theorem write_json_atomic_atomicity
    (files : FPath → Option CacheFile) (tmp target : FPath) (doc : Json)
    (serOk : Bool) (hne : tmp ≠ target) :
    (write_json_atomic files tmp target doc serOk).2 = !serOk ∧
    (write_json_atomic files tmp target doc serOk).1 tmp = none ∧
    (serOk = false →
      ∀ p, p ≠ tmp → (write_json_atomic files tmp target doc serOk).1 p = files p) ∧
    (serOk = true →
      (write_json_atomic files tmp target doc serOk).1 target =
        some (CacheFile.valid doc) ∧
      ∀ p, p ≠ tmp → p ≠ target →
        (write_json_atomic files tmp target doc serOk).1 p = files p) := by
  cases serOk with
  | false =>
    refine ⟨rfl, by simp [write_json_atomic], fun _ p hp => ?_, fun h => by simp at h⟩
    simp [write_json_atomic, hp]
  | true =>
    refine ⟨rfl, by simp [write_json_atomic], fun h => by simp at h, fun _ => ⟨?_, ?_⟩⟩
    · have hts : target ≠ tmp := fun h => hne h.symm
      simp [write_json_atomic, hts]
    · intro p hptmp hptarget
      simp [write_json_atomic, hptmp, hptarget]

theorem write_json_atomic_atomicity_witness :
    (write_json_atomic (fun _ => none) ["a", "t.tmp"] ["a", "t.json"] Json.null false).2 = true ∧
    (write_json_atomic (fun _ => none) ["a", "t.tmp"] ["a", "t.json"] Json.null false).1
      ["a", "t.json"] = none := by
  have h := write_json_atomic_atomicity (fun _ => none) ["a", "t.tmp"] ["a", "t.json"]
    Json.null false (by decide)
  exact ⟨h.1, h.2.2.1 rfl ["a", "t.json"] (by decide)⟩

/-- Claim C7.  For every file path whose extension is not one of the
supported ones, analyzer selection yields none and scanFile returns the
explicit unsupported-file-type error document rather than raising or
failing silently. -/
theorem scanFile_unsupported_error
    (w : World) (filePath : String) (target root : FPath) (parsedData : Doc)
    (hpy : endsWithStr filePath ".py" = false)
    (hm : endsWithStr filePath ".m" = false)
    (hcpp : endsWithStr filePath ".cpp" = false)
    (hh : endsWithStr filePath ".h" = false) :
    getParser filePath = none ∧
    (scanFile w filePath target root parsedData).1 =
      [("error", Json.str "Unsupported file type")] := by
  have hgp : getParser filePath = none := by
    unfold getParser
    rw [hpy, hm, hcpp, hh]
    rfl
  exact ⟨hgp, by unfold scanFile; rw [hgp]⟩

theorem scanFile_unsupported_error_witness :
    getParser "notes.txt" = none ∧
    (scanFile { dirs := [], files := fun _ => none } "notes.txt"
      ["proj", "notes.txt"] ["proj"] []).1 =
      [("error", Json.str "Unsupported file type")] :=
  scanFile_unsupported_error { dirs := [], files := fun _ => none } "notes.txt"
    ["proj", "notes.txt"] ["proj"] [] (by decide) (by decide) (by decide) (by decide)

/-- Claim C10.  scanFile resolves the storage path before dispatching an
analyzer, so a call on an unsupported extension returns the error
document without writing any cache file, yet has already created the
cache directory under the root as a side effect if it was absent. -/
theorem scanFile_dir_side_effect
    (w : World) (filePath : String) (target root : FPath) (parsedData : Doc)
    (h : getParser filePath = none) :
    (scanFile w filePath target root parsedData).1 =
      [("error", Json.str "Unsupported file type")] ∧
    (scanFile w filePath target root parsedData).2.dirs =
      mkdirs (storageDir root) w.dirs ∧
    storageDir root ∈ (scanFile w filePath target root parsedData).2.dirs ∧
    (scanFile w filePath target root parsedData).2.files = w.files := by
  unfold scanFile
  rw [h]
  refine ⟨rfl, rfl, ?_, rfl⟩
  simp only [mkdirs]
  split
  · assumption
  · exact List.mem_cons_self _ _

theorem scanFile_dir_side_effect_witness :
    storageDir ["proj"] ∈
      (scanFile { dirs := [], files := fun _ => none } "notes.rst"
        ["proj", "notes.rst"] ["proj"] []).2.dirs :=
  (scanFile_dir_side_effect { dirs := [], files := fun _ => none } "notes.rst"
    ["proj", "notes.rst"] ["proj"] [] (by decide)).2.2.1

theorem lexLe_total (a b : List Char) : lexLe a b = true ∨ lexLe b a = true := by
  induction a generalizing b with
  | nil => left; rfl
  | cons x xs ih =>
    cases b with
    | nil => right; rfl
    | cons y ys =>
      simp only [lexLe]
      by_cases h : x.toNat = y.toNat
      · rw [if_pos h, if_pos h.symm]
        exact ih ys
      · have h' : ¬ y.toNat = x.toNat := fun e => h e.symm
        rw [if_neg h, if_neg h']
        simp only [decide_eq_true_eq]
        omega

theorem lexLe_trans (a b c : List Char) (hab : lexLe a b = true)
    (hbc : lexLe b c = true) : lexLe a c = true := by
  induction a generalizing b c with
  | nil => rfl
  | cons x xs ih =>
    cases b with
    | nil => simp [lexLe] at hab
    | cons y ys =>
      cases c with
      | nil => simp [lexLe] at hbc
      | cons z zs =>
        simp only [lexLe] at hab hbc ⊢
        by_cases hxy : x.toNat = y.toNat
        · by_cases hyz : y.toNat = z.toNat
          · rw [if_pos hxy] at hab
            rw [if_pos hyz] at hbc
            rw [if_pos (hxy.trans hyz)]
            exact ih ys zs hab hbc
          · rw [if_neg hyz] at hbc
            have hlt : y.toNat < z.toNat := by
              by_contra hn
              simp [hn] at hbc
            have : ¬ x.toNat = z.toNat := by omega
            rw [if_neg this]
            simp only [decide_eq_true_eq]
            omega
        · rw [if_neg hxy] at hab
          have hlt : x.toNat < y.toNat := by
            by_contra hn
            simp [hn] at hab
          by_cases hyz : y.toNat = z.toNat
          · have : ¬ x.toNat = z.toNat := by omega
            rw [if_neg this]
            simp only [decide_eq_true_eq]
            omega
          · rw [if_neg hyz] at hbc
            have hlt2 : y.toNat < z.toNat := by
              by_contra hn
              simp [hn] at hbc
            have : ¬ x.toNat = z.toNat := by omega
            rw [if_neg this]
            simp only [decide_eq_true_eq]
            omega

theorem strLe_total (a b : String) : strLe a b = true ∨ strLe b a = true :=
  lexLe_total a.data b.data

theorem strLe_trans (a b c : String) (hab : strLe a b = true)
    (hbc : strLe b c = true) : strLe a c = true :=
  lexLe_trans a.data b.data c.data hab hbc

theorem mem_insertSorted (x a : String) (l : List String) :
    a ∈ insertSorted x l ↔ a = x ∨ a ∈ l := by
  induction l with
  | nil => simp [insertSorted]
  | cons y ys ih =>
    simp only [insertSorted]
    split
    · simp [List.mem_cons]
    · simp only [List.mem_cons, ih]
      tauto

theorem sorted_insertSorted (x : String) (l : List String)
    (h : SortedStr l) : SortedStr (insertSorted x l) := by
  unfold SortedStr at h ⊢
  induction l with
  | nil => simp [insertSorted]
  | cons y ys ih =>
    simp only [insertSorted]
    rw [List.sorted_cons] at h
    split
    · rename_i hxy
      rw [List.sorted_cons]
      refine ⟨fun b hb => ?_, ?_⟩
      · rcases List.mem_cons.mp hb with rfl | hb
        · exact hxy
        · exact strLe_trans x y b hxy (h.1 b hb)
      · rw [List.sorted_cons]
        exact h
    · rename_i hxy
      have hyx : strLe y x = true := by
        rcases strLe_total x y with hr | hr
        · exact absurd hr hxy
        · exact hr
      rw [List.sorted_cons]
      refine ⟨fun b hb => ?_, ih h.2⟩
      rcases (mem_insertSorted x b ys).mp hb with rfl | hb
      · exact hyx
      · exact h.1 b hb

theorem sorted_sortStrings (l : List String) : SortedStr (sortStrings l) := by
  induction l with
  | nil => simp [sortStrings, SortedStr]
  | cons x xs ih => exact sorted_insertSorted x (sortStrings xs) ih

theorem isEmpty_false_ne_nil {α : Type} {l : List α} (h : l.isEmpty = false) :
    l ≠ [] := by
  cases l with
  | nil => simp [List.isEmpty] at h
  | cons a t => simp

theorem buildDependencies_nonempty (allMethods allProps : List String)
    (defs : List (String × String)) (m : List (String × MDeps))
    (hm : ∀ k d, lookupKey m k = some d → d.calls ≠ [] ∨ d.uses_properties ≠ []) :
    ∀ k d, lookupKey (buildDependencies allMethods allProps m defs) k = some d →
      d.calls ≠ [] ∨ d.uses_properties ≠ [] := by
  induction defs generalizing m with
  | nil => exact hm
  | cons p t ih =>
    simp only [buildDependencies, List.foldl_cons]
    apply ih
    intro k d hk
    by_cases he : ((extract_dependencies p.2 allMethods allProps p.1).calls.isEmpty &&
        (extract_dependencies p.2 allMethods allProps p.1).uses_properties.isEmpty) = true
    · rw [if_pos he] at hk
      exact hm k d hk
    · rw [if_neg he] at hk
      rw [lookupKey_setKey] at hk
      split at hk
      · cases hk
        cases h1 : (extract_dependencies p.2 allMethods allProps p.1).calls.isEmpty with
        | false => exact Or.inl (isEmpty_false_ne_nil h1)
        | true =>
          cases h2 : (extract_dependencies p.2 allMethods allProps p.1).uses_properties.isEmpty with
          | false => exact Or.inr (isEmpty_false_ne_nil h2)
          | true => exact absurd (by rw [h1, h2]; rfl) he
      · exact hm k d hk

/-- Claim C5.  Scanning the scenario source classdef A with property x
and method y reading obj.x yields a single class A with exactly that
property and method, and a dependencies entry for y whose usesProperties
is exactly x; in general every dependencies entry holds sorted calls and
usesProperties lists and entries with neither edge kind are omitted. -/
theorem matlab_scenario_and_dependency_shape :
    (matlabParse c5source).classDetails =
      [{ name := "A", properties := [{ name := "x", attributes := [] }],
         methods := [{ name := "y", signature := "function y(obj)",
                       attributes := [], propName := none }] }] ∧
    lookupKey (matlabParse c5source).dependencies "y" =
      some { calls := [], uses_properties := ["x"] } ∧
    (∀ body allMethods allProps current,
      SortedStr (extract_dependencies body allMethods allProps current).calls ∧
      SortedStr (extract_dependencies body allMethods allProps current).uses_properties) ∧
    (∀ lines name d, lookupKey (matlabParse lines).dependencies name = some d →
      d.calls ≠ [] ∨ d.uses_properties ≠ []) := by
  refine ⟨by decide, by decide, fun body am ap cur => ?_, fun lines name d h => ?_⟩
  · exact ⟨sorted_sortStrings _, sorted_sortStrings _⟩
  · exact buildDependencies_nonempty (mrun lines).allMethods (mrun lines).allProps
      (mrun lines).definitions [] (fun _ _ h => by simp [lookupKey] at h) name d h

theorem pfx_cons_elim {a : Char} {as cs : List Char} (h : pfx (a :: as) cs = true) :
    ∃ t, cs = a :: t ∧ pfx as t = true := by
  cases cs with
  | nil => simp [pfx] at h
  | cons b bs =>
    simp only [pfx, Bool.and_eq_true, decide_eq_true_eq] at h
    exact ⟨bs, by rw [h.1], h.2⟩

theorem kwBoundary_pfx (k code : String) (h : kwBoundary k code = true) :
    pfx k.data code.data = true := by
  simp only [kwBoundary, Bool.and_eq_true] at h
  exact h.1

/-- A line whose stripped code matches one of the block-opening keywords
cannot simultaneously match the classdef, function, properties, methods
or bare-end tests: the keyword literals are pairwise prefix-incompatible. -/
theorem blockOpen_excl (code : String) (h : blockOpen code = true) :
    classdefName code = none ∧ functionName code = none ∧
    propBlockOpen code = false ∧ methodsBlockOpen code = false ∧
    code ≠ "end" := by
  simp only [blockOpen, Bool.or_eq_true] at h
  rcases h with ((((h | h) | h) | h) | h) | h
  · obtain ⟨t1, h1, hrest⟩ := pfx_cons_elim (kwBoundary_pfx _ _ h)
    obtain ⟨t2, h2, -⟩ := pfx_cons_elim hrest
    subst h2
    exact ⟨by unfold classdefName; rw [h1]; rfl,
           by unfold functionName; rw [h1]; rfl,
           by unfold propBlockOpen kwThenParenOrEnd; rw [h1]; rfl,
           by unfold methodsBlockOpen kwThenParenOrEnd; rw [h1]; rfl,
           by intro he; rw [he] at h1; simp at h1⟩
  · obtain ⟨t1, h1, hrest⟩ := pfx_cons_elim (kwBoundary_pfx _ _ h)
    obtain ⟨t2, h2, -⟩ := pfx_cons_elim hrest
    subst h2
    exact ⟨by unfold classdefName; rw [h1]; rfl,
           by unfold functionName; rw [h1]; rfl,
           by unfold propBlockOpen kwThenParenOrEnd; rw [h1]; rfl,
           by unfold methodsBlockOpen kwThenParenOrEnd; rw [h1]; rfl,
           by intro he; rw [he] at h1; simp at h1⟩
  · obtain ⟨t1, h1, -⟩ := pfx_cons_elim (kwBoundary_pfx _ _ h)
    exact ⟨by unfold classdefName; rw [h1]; rfl,
           by unfold functionName; rw [h1]; rfl,
           by unfold propBlockOpen kwThenParenOrEnd; rw [h1]; rfl,
           by unfold methodsBlockOpen kwThenParenOrEnd; rw [h1]; rfl,
           by intro he; rw [he] at h1; simp at h1⟩
  · obtain ⟨t1, h1, -⟩ := pfx_cons_elim (kwBoundary_pfx _ _ h)
    exact ⟨by unfold classdefName; rw [h1]; rfl,
           by unfold functionName; rw [h1]; rfl,
           by unfold propBlockOpen kwThenParenOrEnd; rw [h1]; rfl,
           by unfold methodsBlockOpen kwThenParenOrEnd; rw [h1]; rfl,
           by intro he; rw [he] at h1; simp at h1⟩
  · obtain ⟨t1, h1, -⟩ := pfx_cons_elim (kwBoundary_pfx _ _ h)
    exact ⟨by unfold classdefName; rw [h1]; rfl,
           by unfold functionName; rw [h1]; rfl,
           by unfold propBlockOpen kwThenParenOrEnd; rw [h1]; rfl,
           by unfold methodsBlockOpen kwThenParenOrEnd; rw [h1]; rfl,
           by intro he; rw [he] at h1; simp at h1⟩
  · obtain ⟨t1, h1, hrest⟩ := pfx_cons_elim (kwBoundary_pfx _ _ h)
    obtain ⟨t2, h2, -⟩ := pfx_cons_elim hrest
    subst h2
    exact ⟨by unfold classdefName; rw [h1]; rfl,
           by unfold functionName; rw [h1]; rfl,
           by unfold propBlockOpen kwThenParenOrEnd; rw [h1]; rfl,
           by unfold methodsBlockOpen kwThenParenOrEnd; rw [h1]; rfl,
           by intro he; rw [he] at h1; simp at h1⟩

/-- The property-line branch never touches the function-body tracker or
the definitions map. -/
theorem propLineStep_frame (i : Nat) (code : String) (c : MCur) (st : MState) :
    (propLineStep i code c st).tracker = st.tracker ∧
    (propLineStep i code c st).definitions = st.definitions := by
  unfold propLineStep
  split
  · split
    · exact ⟨rfl, rfl⟩
    · split
      · exact ⟨rfl, rfl⟩
      · exact ⟨rfl, rfl⟩
  · exact ⟨rfl, rfl⟩

/-- When a line is neither a classdef, a function, a properties opener
nor a methods opener, the post-tracking part of the loop body leaves the
function-body tracker and the definitions map unchanged. -/
theorem mlineStep_frame (i indent : Nat) (code : String) (st : MState)
    (h1 : classdefName code = none) (h2 : functionName code = none)
    (h3 : propBlockOpen code = false) (h4 : methodsBlockOpen code = false) :
    (mlineStep i indent code st).tracker = st.tracker ∧
    (mlineStep i indent code st).definitions = st.definitions := by
  unfold mlineStep
  rw [h1]
  cases hcur : st.cur with
  | none => rw [h2]; exact ⟨rfl, rfl⟩
  | some c =>
    rw [h2, h3, h4]
    split
    · exact ⟨rfl, rfl⟩
    · simp only [Bool.false_eq_true, if_false]
      split
      · exact ⟨rfl, rfl⟩
      · cases st.inProps with
        | none => exact ⟨rfl, rfl⟩
        | some pi =>
          split
          · exact ⟨rfl, rfl⟩
          · exact propLineStep_frame i code c st

/-- Claim C6.  While a function body is being tracked, a block-opening
keyword line increments the nesting depth, a closing end at positive
depth decrements it, and an end at depth zero closes the function and
stores the verbatim line range from the function-opening line through
that end into definitions under the tracked name; in particular a
function containing one nested for/end pair is closed at the outer end,
not at the first end encountered. -/
theorem matlab_nest_tracking
    (lines : List String) (st : MState) (i indent s0 d : Nat) (nm : String)
    (raw code : String)
    (hlc : lineCode raw = some (indent, code))
    (htr : st.tracker = some { start := s0, name := nm, depth := d }) :
    (blockOpen code = true →
      (mstep lines st i raw).tracker = some { start := s0, name := nm, depth := d + 1 } ∧
      (mstep lines st i raw).definitions = st.definitions) ∧
    (code = "end" → 0 < d →
      (mstep lines st i raw).tracker = some { start := s0, name := nm, depth := d - 1 } ∧
      (mstep lines st i raw).definitions = st.definitions) ∧
    (code = "end" → d = 0 →
      (mstep lines st i raw).definitions = setKey st.definitions nm (sliceJoin lines s0 i) ∧
      (mstep lines st i raw).tracker = none) ∧
    (matlabParse ["function f()", "for k = 1:3", "end", "end"]).definitions =
      [("f", "function f()\nfor k = 1:3\nend\nend")] := by
  have hms : mstep lines st i raw = mlineStep i indent code (bodyTrackStep lines i code st) := by
    unfold mstep
    rw [hlc]
  refine ⟨fun hb => ?_, fun hend hd => ?_, fun hend hd => ?_, by decide⟩
  · have hex := blockOpen_excl code hb
    have hbt : bodyTrackStep lines i code st =
        { st with tracker := some { start := s0, name := nm, depth := d + 1 } } := by
      unfold bodyTrackStep
      rw [htr, hb]
      rfl
    have hfr := mlineStep_frame i indent code
      { st with tracker := some { start := s0, name := nm, depth := d + 1 } }
      hex.1 hex.2.1 hex.2.2.1 hex.2.2.2.1
    rw [hms, hbt]
    exact ⟨hfr.1, hfr.2⟩
  · subst hend
    have hbt : bodyTrackStep lines i "end" st =
        { st with tracker := some { start := s0, name := nm, depth := d - 1 } } := by
      unfold bodyTrackStep
      rw [htr]
      simp [show blockOpen "end" = false from rfl, hd]
    have hfr := mlineStep_frame i indent "end"
      { st with tracker := some { start := s0, name := nm, depth := d - 1 } }
      rfl rfl rfl rfl
    rw [hms, hbt]
    exact ⟨hfr.1, hfr.2⟩
  · subst hend
    have hbt : bodyTrackStep lines i "end" st =
        { st with definitions := setKey st.definitions nm (sliceJoin lines s0 i)
                  tracker := none } := by
      unfold bodyTrackStep
      rw [htr]
      simp [show blockOpen "end" = false from rfl, hd]
    have hfr := mlineStep_frame i indent "end"
      { st with definitions := setKey st.definitions nm (sliceJoin lines s0 i)
                tracker := none }
      rfl rfl rfl rfl
    rw [hms, hbt]
    exact ⟨hfr.2, hfr.1⟩

theorem matlab_nest_tracking_witness :
    (mstep ["function f()", "for x", "end"]
      { initMState with tracker := some { start := 0, name := "f", depth := 0 } }
      1 "for x").tracker = some { start := 0, name := "f", depth := 1 } := by
  have h := matlab_nest_tracking ["function f()", "for x", "end"]
    { initMState with tracker := some { start := 0, name := "f", depth := 0 } }
    1 0 0 0 "f" "for x" "for x" (by decide) rfl
  exact (h.1 (by decide)).1

theorem matlab_scenario_and_dependency_shape_witness :
    (([] : List String) ≠ [] ∨ (["x"] : List String) ≠ []) ∧
    SortedStr (extract_dependencies "obj.x;" ["y"] ["x"] "y").uses_properties := by
  have h := matlab_scenario_and_dependency_shape
  exact ⟨h.2.2.2 c5source "y" { calls := [], uses_properties := ["x"] } h.2.1,
    (h.2.2.1 "obj.x;" ["y"] ["x"] "y").2⟩

theorem startsWith_dotdot_join (h : String) (t : List String) :
    startsWithStr (joinSep "/" (h :: t)) ".." = startsWithStr h ".." := by
  cases t with
  | nil => rfl
  | cons y ys =>
    show pfx "..".data (h ++ "/" ++ joinSep "/" (y :: ys)).data = pfx "..".data h.data
    rw [String.data_append, String.data_append]
    cases hd : h.data with
    | nil => rfl
    | cons c1 cs1 =>
      cases cs1 with
      | nil => simp [pfx]
      | cons c2 cs2 => rfl

/-- Counterexample to claim C8 as stated: under root /r, the target
/r/..a/b.py has relative path "..a/b.py", which contains no
parent-traversal component and does not escape the root, yet the
resolver derives the filename from the sanitized absolute path (the
relative-path string merely starts with the two characters ".."),
not from the sanitized relative path. -/
theorem storage_path_escape_counterexample :
    (relComps ["r", "..a", "b.py"] ["r"]).head? ≠ some ".." ∧
    ".." ∉ relComps ["r", "..a", "b.py"] ["r"] ∧
    storageFilename ["r", "..a", "b.py"] ["r"] =
      "meta_" ++ sanitizeAbs ["r", "..a", "b.py"] ++ ".json" ∧
    storageFilename ["r", "..a", "b.py"] ["r"] ≠
      "meta_" ++ sanitizeRel (relString (relComps ["r", "..a", "b.py"] ["r"])) ++ ".json" := by
  decide

/-- Claim C8, amended.  The resolver derives the cache filename from the
fully sanitized absolute path exactly when the relative-path STRING of
target under root starts with ".." — in particular whenever the relative
path escapes root with a leading parent-traversal component, but also
when its first component merely begins with those two characters — and
otherwise derives it by sanitizing the relative path, replacing path
separators and literal dots with underscores; the resulting filename is
meta_<sanitized>.json under <root>/assets/.visualizer/. -/
theorem storage_path_sanitization (target root : FPath) :
    (startsWithStr (relString (relComps target root)) ".." = true ↔
      (∃ h t, relComps target root = h :: t ∧ startsWithStr h ".." = true)) ∧
    ((relComps target root).head? = some ".." →
      storageFilename target root = "meta_" ++ sanitizeAbs target ++ ".json") ∧
    (startsWithStr (relString (relComps target root)) ".." = true →
      storageFilename target root = "meta_" ++ sanitizeAbs target ++ ".json") ∧
    (startsWithStr (relString (relComps target root)) ".." = false →
      storageFilename target root =
        "meta_" ++ sanitizeRel (relString (relComps target root)) ++ ".json") ∧
    getStoragePath target root =
      root ++ ["assets", ".visualizer", storageFilename target root] := by
  have hbridge : startsWithStr (relString (relComps target root)) ".." = true ↔
      (∃ h t, relComps target root = h :: t ∧ startsWithStr h ".." = true) := by
    cases hrc : relComps target root with
    | nil => simp [relString, startsWithStr, pfx]
    | cons h t =>
      have : relString (h :: t) = joinSep "/" (h :: t) := rfl
      rw [this, startsWith_dotdot_join]
      constructor
      · intro hs
        exact ⟨h, t, rfl, hs⟩
      · rintro ⟨h', t', he, hs⟩
        cases he
        exact hs
  refine ⟨hbridge, fun hhead => ?_, fun hs => ?_, fun hs => ?_, ?_⟩
  · have hs : startsWithStr (relString (relComps target root)) ".." = true := by
      rcases hx : relComps target root with _ | ⟨h, t⟩
      · rw [hx] at hhead
        simp at hhead
      · rw [hx] at hhead
        have hh : h = ".." := by
          simpa using hhead
        rw [← hx]
        exact hbridge.mpr ⟨h, t, hx, by rw [hh]; rfl⟩
    unfold storageFilename
    rw [hs]
    simp
  · unfold storageFilename
    rw [hs]
    simp
  · unfold storageFilename
    rw [hs]
    simp
  · unfold getStoragePath storageDir
    simp

theorem storage_path_sanitization_witness :
    storageFilename ["r", "sub", "a.py"] ["r"] =
      "meta_" ++ sanitizeRel (relString (relComps ["r", "sub", "a.py"] ["r"])) ++ ".json" :=
  (storage_path_sanitization ["r", "sub", "a.py"] ["r"]).2.2.2.1 (by decide)

theorem qual_ne_bare (c m : String) : c ++ "." ++ m ≠ m := by
  intro h
  have hd : (c ++ "." ++ m).data = m.data := congrArg String.data h
  rw [String.data_append, String.data_append] at hd
  have hl := congrArg List.length hd
  simp [List.length_append] at hl
  omega

theorem targetFold_defs_sigs (cname : String) (lineno : Nat) (targets : List PyTarget) :
    ∀ acc : PyAcc × PyClassInfo,
      (targets.foldl (processTarget cname lineno) acc).1.definitions = acc.1.definitions ∧
      (targets.foldl (processTarget cname lineno) acc).1.signatures = acc.1.signatures := by
  induction targets with
  | nil => intro acc; exact ⟨rfl, rfl⟩
  | cons t ts ih =>
    intro acc
    cases t with
    | nameT x => exact ih _
    | otherT => exact ih acc

theorem bodyFold_frame (lines : List String) (cname : String)
    (body : List PyClassItem) (k : String) :
    k ∉ bodyDefKeys cname body →
    ∀ acc : PyAcc × PyClassInfo,
      lookupKey (body.foldl (processClassItem lines cname) acc).1.definitions k =
        lookupKey acc.1.definitions k ∧
      lookupKey (body.foldl (processClassItem lines cname) acc).1.signatures k =
        lookupKey acc.1.signatures k := by
  induction body with
  | nil => intro _ acc; exact ⟨rfl, rfl⟩
  | cons it rest ih =>
    intro hk acc
    cases it with
    | fnItem m =>
      simp only [bodyDefKeys, List.mem_cons, not_or] at hk
      obtain ⟨hk1, hk2, hk3⟩ := hk
      have step := ih hk3 (processClassItem lines cname acc (.fnItem m))
      refine ⟨?_, ?_⟩
      · rw [List.foldl_cons, step.1]
        simp only [processClassItem]
        rw [lookupKey_setKey, if_neg (fun h => hk2 h.symm),
          lookupKey_setKey, if_neg (fun h => hk1 h.symm)]
      · rw [List.foldl_cons, step.2]
        simp only [processClassItem]
        rw [lookupKey_setKey, if_neg (fun h => hk1 h.symm)]
    | assignItem targets lineno =>
      simp only [bodyDefKeys] at hk
      have step := ih hk (processClassItem lines cname acc (.assignItem targets lineno))
      have htf := targetFold_defs_sigs cname lineno targets acc
      refine ⟨?_, ?_⟩
      · rw [List.foldl_cons, step.1]
        simp only [processClassItem]
        rw [htf.1]
      · rw [List.foldl_cons, step.2]
        simp only [processClassItem]
        rw [htf.2]
    | otherItem =>
      simp only [bodyDefKeys] at hk
      have step := ih hk (processClassItem lines cname acc .otherItem)
      exact ⟨by rw [List.foldl_cons]; exact step.1,
             by rw [List.foldl_cons]; exact step.2⟩

theorem bodyFold_method_lookup (lines : List String) (cname : String)
    (body : List PyClassItem) (m : PyFunc) :
    PyClassItem.fnItem m ∈ body → (bodyDefKeys cname body).Nodup →
    ∀ acc : PyAcc × PyClassInfo,
      lookupKey (body.foldl (processClassItem lines cname) acc).1.definitions m.name =
        some (funcSource lines m) ∧
      lookupKey (body.foldl (processClassItem lines cname) acc).1.definitions
        (cname ++ "." ++ m.name) = some (funcSource lines m) ∧
      lookupKey (body.foldl (processClassItem lines cname) acc).1.signatures m.name =
        some (get_signature m) := by
  induction body with
  | nil => intro hm; simp at hm
  | cons it rest ih =>
    intro hm hnd acc
    rcases List.mem_cons.mp hm with heq | hmem
    · subst heq
      simp only [bodyDefKeys, List.nodup_cons, List.mem_cons, not_or] at hnd
      obtain ⟨⟨hq1, hrest1⟩, hq2, hnd2⟩ := hnd
      have hfr := bodyFold_frame lines cname rest m.name hrest1
        (processClassItem lines cname acc (.fnItem m))
      have hfr2 := bodyFold_frame lines cname rest (cname ++ "." ++ m.name) hq2
        (processClassItem lines cname acc (.fnItem m))
      rw [List.foldl_cons]
      refine ⟨?_, ?_, ?_⟩
      · rw [hfr.1]
        simp only [processClassItem]
        rw [lookupKey_setKey, if_neg (qual_ne_bare cname m.name), lookupKey_setKey,
          if_pos rfl]
      · rw [hfr2.1]
        simp only [processClassItem]
        rw [lookupKey_setKey, if_pos rfl]
      · rw [hfr.2]
        simp only [processClassItem]
        rw [lookupKey_setKey, if_pos rfl]
    · have hnd2 : (bodyDefKeys cname rest).Nodup := by
        cases it with
        | fnItem m' =>
          simp only [bodyDefKeys, List.nodup_cons] at hnd
          exact hnd.2.2
        | assignItem targets lineno => simpa [bodyDefKeys] using hnd
        | otherItem => simpa [bodyDefKeys] using hnd
      rw [List.foldl_cons]
      exact ih hmem hnd2 _

theorem treeFold_frame (lines : List String) (tree : List PyNode) (k : String) :
    k ∉ pyDefKeys tree →
    ∀ acc : PyAcc,
      lookupKey (tree.foldl (processNode lines) acc).definitions k =
        lookupKey acc.definitions k ∧
      lookupKey (tree.foldl (processNode lines) acc).signatures k =
        lookupKey acc.signatures k := by
  induction tree with
  | nil => intro _ acc; exact ⟨rfl, rfl⟩
  | cons n t ih =>
    intro hk acc
    rw [pyDefKeys, List.mem_append, not_or] at hk
    obtain ⟨hk1, hk2⟩ := hk
    have step := ih hk2 (processNode lines acc n)
    rw [List.foldl_cons]
    cases n with
    | fnNode f =>
      simp only [nodeDefKeys, List.mem_singleton] at hk1
      refine ⟨?_, ?_⟩
      · rw [step.1]
        simp only [processNode]
        rw [lookupKey_setKey, if_neg (fun h => hk1 h.symm)]
      · rw [step.2]
        simp only [processNode]
        rw [lookupKey_setKey, if_neg (fun h => hk1 h.symm)]
    | clsNode c =>
      simp only [nodeDefKeys] at hk1
      have hbf := bodyFold_frame lines c.name c.body k hk1
      refine ⟨?_, ?_⟩
      · rw [step.1]
        simp only [processNode]
        exact (hbf _).1
      · rw [step.2]
        simp only [processNode]
        exact (hbf _).2
    | otherNode => exact ⟨by rw [step.1]; rfl, by rw [step.2]; rfl⟩

theorem mem_bodyDefKeys (cname : String) (body : List PyClassItem) (m : PyFunc)
    (hm : PyClassItem.fnItem m ∈ body) :
    m.name ∈ bodyDefKeys cname body ∧
    (cname ++ "." ++ m.name) ∈ bodyDefKeys cname body := by
  induction body with
  | nil => simp at hm
  | cons it rest ih =>
    rcases List.mem_cons.mp hm with heq | hmem
    · subst heq
      simp [bodyDefKeys]
    · cases it with
      | fnItem m' =>
        have := ih hmem
        simp only [bodyDefKeys, List.mem_cons]
        exact ⟨Or.inr (Or.inr this.1), Or.inr (Or.inr this.2)⟩
      | assignItem targets lineno => simpa [bodyDefKeys] using ih hmem
      | otherItem => simpa [bodyDefKeys] using ih hmem

theorem treeFold_method_lookup (lines : List String) (tree : List PyNode)
    (C : PyClass) (m : PyFunc) :
    PyNode.clsNode C ∈ tree → PyClassItem.fnItem m ∈ C.body →
    (pyDefKeys tree).Nodup →
    ∀ acc : PyAcc,
      lookupKey (tree.foldl (processNode lines) acc).definitions m.name =
        some (funcSource lines m) ∧
      lookupKey (tree.foldl (processNode lines) acc).definitions
        (C.name ++ "." ++ m.name) = some (funcSource lines m) ∧
      lookupKey (tree.foldl (processNode lines) acc).signatures m.name =
        some (get_signature m) := by
  induction tree with
  | nil => intro hc; simp at hc
  | cons n t ih =>
    intro hc hm hnd acc
    have hnd' := List.nodup_append.mp (by simpa [pyDefKeys] using hnd)
    rcases List.mem_cons.mp hc with heq | hmem
    · subst heq
      have hmem2 := mem_bodyDefKeys C.name C.body m hm
      have hdisj := hnd'.2.2
      have hfr1 := treeFold_frame lines t m.name
        (fun hin => hdisj (by simpa [nodeDefKeys] using hmem2.1) hin)
        (processNode lines acc (.clsNode C))
      have hfr2 := treeFold_frame lines t (C.name ++ "." ++ m.name)
        (fun hin => hdisj (by simpa [nodeDefKeys] using hmem2.2) hin)
        (processNode lines acc (.clsNode C))
      have hbody := bodyFold_method_lookup lines C.name C.body m hm
        (by simpa [nodeDefKeys] using hnd'.1)
      rw [List.foldl_cons]
      refine ⟨?_, ?_, ?_⟩
      · rw [hfr1.1]
        simp only [processNode]
        exact (hbody _).1
      · rw [hfr2.1]
        simp only [processNode]
        exact (hbody _).2.1
      · rw [hfr1.2]
        simp only [processNode]
        exact (hbody _).2.2
    · rw [List.foldl_cons]
      exact ih hmem hm hnd'.2.1 _

theorem bodySig_keys_bare (lines : List String) (cname : String)
    (body : List PyClassItem) (k : String) :
    ∀ acc : PyAcc × PyClassInfo,
      lookupKey (body.foldl (processClassItem lines cname) acc).1.signatures k ≠ none →
      k ∈ bodyBareKeys body ∨ lookupKey acc.1.signatures k ≠ none := by
  induction body with
  | nil => intro acc h; exact Or.inr h
  | cons it rest ih =>
    intro acc h
    rw [List.foldl_cons] at h
    rcases ih _ h with hmem | hne
    · left
      cases it <;> simp [bodyBareKeys, hmem]
    · cases it with
      | fnItem m =>
        simp only [processClassItem] at hne
        rw [lookupKey_setKey] at hne
        by_cases he : m.name = k
        · left
          simp [bodyBareKeys, he.symm]
        · rw [if_neg he] at hne
          exact Or.inr hne
      | assignItem targets lineno =>
        simp only [processClassItem] at hne
        rw [(targetFold_defs_sigs cname lineno targets acc).2] at hne
        exact Or.inr hne
      | otherItem => exact Or.inr hne

theorem pySig_keys_bare (lines : List String) (tree : List PyNode) (k : String) :
    ∀ acc : PyAcc,
      lookupKey (tree.foldl (processNode lines) acc).signatures k ≠ none →
      k ∈ pyBareKeys tree ∨ lookupKey acc.signatures k ≠ none := by
  induction tree with
  | nil => intro acc h; exact Or.inr h
  | cons n t ih =>
    intro acc h
    rw [List.foldl_cons] at h
    rcases ih _ h with hmem | hne
    · left
      simp [pyBareKeys, hmem]
    · cases n with
      | fnNode f =>
        simp only [processNode] at hne
        rw [lookupKey_setKey] at hne
        by_cases he : f.name = k
        · left
          simp [pyBareKeys, nodeBareKeys, he.symm]
        · rw [if_neg he] at hne
          exact Or.inr hne
      | clsNode c =>
        simp only [processNode] at hne
        rcases bodySig_keys_bare lines c.name c.body k _ hne with hb | hb
        · left
          simp [pyBareKeys, nodeBareKeys, hb]
        · exact Or.inr hb
      | otherNode => exact Or.inr hne

theorem count_bodyDefKeys (cname : String) (body : List PyClassItem) (k : String) :
    List.count k (bodyDefKeys cname body) =
    List.count k (bodyBareKeys body) + List.count k (bodyQualKeys cname body) := by
  induction body with
  | nil => simp [bodyDefKeys, bodyBareKeys, bodyQualKeys]
  | cons it rest ih =>
    cases it with
    | fnItem m =>
      simp only [bodyDefKeys, bodyBareKeys, bodyQualKeys, List.count_cons, ih]
      omega
    | assignItem targets lineno => simpa [bodyDefKeys, bodyBareKeys, bodyQualKeys] using ih
    | otherItem => simpa [bodyDefKeys, bodyBareKeys, bodyQualKeys] using ih

theorem count_pyDefKeys (tree : List PyNode) (k : String) :
    List.count k (pyDefKeys tree) =
    List.count k (pyBareKeys tree) + List.count k (pyQualKeys tree) := by
  induction tree with
  | nil => simp [pyDefKeys, pyBareKeys, pyQualKeys]
  | cons n t ih =>
    simp only [pyDefKeys, pyBareKeys, pyQualKeys, List.count_append, ih]
    cases n with
    | fnNode f =>
      simp only [nodeDefKeys, nodeBareKeys, nodeQualKeys, List.count_cons, List.count_nil]
      omega
    | clsNode c =>
      simp only [nodeDefKeys, nodeBareKeys, nodeQualKeys, count_bodyDefKeys]
      omega
    | otherNode =>
      simp only [nodeDefKeys, nodeBareKeys, nodeQualKeys, List.count_nil]
      omega

theorem mem_bodyQualKeys (cname : String) (body : List PyClassItem) (m : PyFunc)
    (hm : PyClassItem.fnItem m ∈ body) :
    (cname ++ "." ++ m.name) ∈ bodyQualKeys cname body := by
  induction body with
  | nil => simp at hm
  | cons it rest ih =>
    rcases List.mem_cons.mp hm with heq | hmem
    · subst heq
      simp [bodyQualKeys]
    · cases it with
      | fnItem m' => simp [bodyQualKeys, ih hmem]
      | assignItem targets lineno => simpa [bodyQualKeys] using ih hmem
      | otherItem => simpa [bodyQualKeys] using ih hmem

theorem mem_pyQualKeys (tree : List PyNode) (C : PyClass) (m : PyFunc)
    (hc : PyNode.clsNode C ∈ tree) (hm : PyClassItem.fnItem m ∈ C.body) :
    (C.name ++ "." ++ m.name) ∈ pyQualKeys tree := by
  induction tree with
  | nil => simp at hc
  | cons n t ih =>
    rcases List.mem_cons.mp hc with heq | hmem
    · subst heq
      simp [pyQualKeys, nodeQualKeys, mem_bodyQualKeys C.name C.body m hm]
    · simp [pyQualKeys, ih hmem]

/-- Counterexample to claim C4 as stated: for the single class A with the
single method m, the analyzer records the verbatim body under both names
but records the signature only under the bare name — the qualified
signature entry the claim asserts does not exist. -/
theorem qualified_signature_counterexample :
    lookupKey (pythonParse c4lines c4tree).signatures "A.m" = none ∧
    lookupKey (pythonParse c4lines c4tree).signatures "m" = some "def m(self)" ∧
    lookupKey (pythonParse c4lines c4tree).definitions "A.m" =
      lookupKey (pythonParse c4lines c4tree).definitions "m" := by
  decide

/-- Claim C4, amended.  For every top-level class C with a method m,
provided no other top-level definition or method rebinds the same bare
or qualified key (the maps are last-writer-wins on collisions),
definitions holds the identical verbatim body under both the bare name
and the Class.method qualified name, and the signature is recorded under
the bare name only: signatures has the bare entry and no qualified
entry. -/
theorem method_dual_registration (lines : List String) (tree : List PyNode)
    (C : PyClass) (m : PyFunc)
    (hc : PyNode.clsNode C ∈ tree) (hm : PyClassItem.fnItem m ∈ C.body)
    (hnd : (pyDefKeys tree).Nodup) :
    lookupKey (pythonParse lines tree).definitions m.name =
      some (funcSource lines m) ∧
    lookupKey (pythonParse lines tree).definitions (C.name ++ "." ++ m.name) =
      some (funcSource lines m) ∧
    lookupKey (pythonParse lines tree).signatures m.name =
      some (get_signature m) ∧
    lookupKey (pythonParse lines tree).signatures (C.name ++ "." ++ m.name) = none := by
  have hmain := treeFold_method_lookup lines tree C m hc hm hnd initPyAcc
  refine ⟨hmain.1, hmain.2.1, hmain.2.2, ?_⟩
  by_contra hne
  have hbare : (C.name ++ "." ++ m.name) ∈ pyBareKeys tree := by
    rcases pySig_keys_bare lines tree (C.name ++ "." ++ m.name) initPyAcc hne with h | h
    · exact h
    · exact absurd rfl h
  have hqual := mem_pyQualKeys tree C m hc hm
  have hcount := count_pyDefKeys tree (C.name ++ "." ++ m.name)
  have h1 : 1 ≤ List.count (C.name ++ "." ++ m.name) (pyBareKeys tree) :=
    List.count_pos_iff.mpr hbare
  have h2 : 1 ≤ List.count (C.name ++ "." ++ m.name) (pyQualKeys tree) :=
    List.count_pos_iff.mpr hqual
  have h3 := List.nodup_iff_count_le_one.mp hnd (C.name ++ "." ++ m.name)
  omega

theorem method_dual_registration_witness :
    lookupKey (pythonParse c4lines c4tree).definitions "A.m" =
      some (funcSource c4lines c4method) ∧
    lookupKey (pythonParse c4lines c4tree).signatures "A.m" = none := by
  have h := method_dual_registration c4lines c4tree c4class c4method
    (by decide) (by decide) (by decide)
  exact ⟨h.2.1, h.2.2.2⟩

theorem targetFold_loc_frame (cname : String) (lineno : Nat)
    (targets : List PyTarget) (k : String) :
    k ∉ targetsLocKeys cname targets →
    ∀ acc : PyAcc × PyClassInfo,
      lookupKey (targets.foldl (processTarget cname lineno) acc).1.locations k =
        lookupKey acc.1.locations k := by
  induction targets with
  | nil => intro _ acc; rfl
  | cons t ts ih =>
    intro hk acc
    cases t with
    | nameT x =>
      simp only [targetsLocKeys, List.mem_cons, not_or] at hk
      obtain ⟨hk1, hk2, hk3⟩ := hk
      rw [List.foldl_cons, ih hk3]
      simp only [processTarget]
      rw [lookupKey_setKey, if_neg (fun h => hk2 h.symm),
        lookupKey_setKey, if_neg (fun h => hk1 h.symm)]
    | otherT =>
      simp only [targetsLocKeys] at hk
      rw [List.foldl_cons]
      exact ih hk acc

theorem bodyFold_loc_frame (lines : List String) (cname : String)
    (body : List PyClassItem) (k : String) :
    k ∉ bodyLocKeys cname body →
    ∀ acc : PyAcc × PyClassInfo,
      lookupKey (body.foldl (processClassItem lines cname) acc).1.locations k =
        lookupKey acc.1.locations k := by
  induction body with
  | nil => intro _ acc; rfl
  | cons it rest ih =>
    intro hk acc
    cases it with
    | fnItem m =>
      simp only [bodyLocKeys, List.mem_cons, not_or] at hk
      obtain ⟨hk1, hk2, hk3⟩ := hk
      rw [List.foldl_cons, ih hk3]
      simp only [processClassItem]
      rw [lookupKey_setKey, if_neg (fun h => hk2 h.symm),
        lookupKey_setKey, if_neg (fun h => hk1 h.symm)]
    | assignItem targets lineno =>
      simp only [bodyLocKeys, List.mem_append, not_or] at hk
      rw [List.foldl_cons, ih hk.2]
      simp only [processClassItem]
      exact targetFold_loc_frame cname lineno targets k hk.1 acc
    | otherItem =>
      simp only [bodyLocKeys] at hk
      rw [List.foldl_cons]
      exact ih hk acc

theorem bodyFold_method_loc (lines : List String) (cname : String)
    (body : List PyClassItem) (m : PyFunc) :
    PyClassItem.fnItem m ∈ body → (bodyLocKeys cname body).Nodup →
    ∀ acc : PyAcc × PyClassInfo,
      lookupKey (body.foldl (processClassItem lines cname) acc).1.locations
        (cname ++ "." ++ m.name) =
        some (find_def_lineno lines m.lineno m.endLineno m.decoratorList) ∧
      lookupKey (body.foldl (processClassItem lines cname) acc).1.locations m.name =
        some (find_def_lineno lines m.lineno m.endLineno m.decoratorList) := by
  induction body with
  | nil => intro hm; simp at hm
  | cons it rest ih =>
    intro hm hnd acc
    rcases List.mem_cons.mp hm with heq | hmem
    · subst heq
      simp only [bodyLocKeys, List.nodup_cons, List.mem_cons, not_or] at hnd
      obtain ⟨⟨hq1, hqrest⟩, hbrest, hnd2⟩ := hnd
      rw [List.foldl_cons]
      refine ⟨?_, ?_⟩
      · rw [bodyFold_loc_frame lines cname rest _ hqrest]
        simp only [processClassItem]
        rw [lookupKey_setKey, if_neg (fun h => hq1 h.symm), lookupKey_setKey, if_pos rfl]
      · rw [bodyFold_loc_frame lines cname rest _ hbrest]
        simp only [processClassItem]
        rw [lookupKey_setKey, if_pos rfl]
    · have hnd2 : (bodyLocKeys cname rest).Nodup := by
        cases it with
        | fnItem m' =>
          simp only [bodyLocKeys, List.nodup_cons] at hnd
          exact hnd.2.2
        | assignItem targets lineno =>
          exact (List.nodup_append.mp (by simpa [bodyLocKeys] using hnd)).2.1
        | otherItem => simpa [bodyLocKeys] using hnd
      rw [List.foldl_cons]
      exact ih hmem hnd2 _

theorem treeFold_loc_frame (lines : List String) (tree : List PyNode) (k : String) :
    k ∉ pyLocKeys tree →
    ∀ acc : PyAcc,
      lookupKey (tree.foldl (processNode lines) acc).locations k =
        lookupKey acc.locations k := by
  induction tree with
  | nil => intro _ acc; rfl
  | cons n t ih =>
    intro hk acc
    rw [pyLocKeys, List.mem_append, not_or] at hk
    obtain ⟨hk1, hk2⟩ := hk
    rw [List.foldl_cons, ih hk2]
    cases n with
    | fnNode f =>
      simp only [nodeLocKeys, List.mem_singleton] at hk1
      simp only [processNode]
      rw [lookupKey_setKey, if_neg (fun h => hk1 h.symm)]
    | clsNode c =>
      simp only [nodeLocKeys, List.mem_cons, not_or] at hk1
      simp only [processNode]
      rw [bodyFold_loc_frame lines c.name c.body k hk1.2]
      rw [lookupKey_setKey, if_neg (fun h => hk1.1 h.symm)]
    | otherNode => rfl

theorem mem_bodyLocKeys (cname : String) (body : List PyClassItem) (m : PyFunc)
    (hm : PyClassItem.fnItem m ∈ body) :
    (cname ++ "." ++ m.name) ∈ bodyLocKeys cname body ∧
    m.name ∈ bodyLocKeys cname body := by
  induction body with
  | nil => simp at hm
  | cons it rest ih =>
    rcases List.mem_cons.mp hm with heq | hmem
    · subst heq
      simp [bodyLocKeys]
    · cases it with
      | fnItem m' =>
        have := ih hmem
        simp only [bodyLocKeys, List.mem_cons]
        exact ⟨Or.inr (Or.inr this.1), Or.inr (Or.inr this.2)⟩
      | assignItem targets lineno =>
        have := ih hmem
        simp only [bodyLocKeys, List.mem_append]
        exact ⟨Or.inr this.1, Or.inr this.2⟩
      | otherItem => simpa [bodyLocKeys] using ih hmem

theorem treeFold_fn_loc (lines : List String) (tree : List PyNode) (f : PyFunc) :
    PyNode.fnNode f ∈ tree → (pyLocKeys tree).Nodup →
    ∀ acc : PyAcc,
      lookupKey (tree.foldl (processNode lines) acc).locations f.name =
        some (find_def_lineno lines f.lineno f.endLineno f.decoratorList) := by
  induction tree with
  | nil => intro hf; simp at hf
  | cons n t ih =>
    intro hf hnd acc
    have hnd' := List.nodup_append.mp (by simpa [pyLocKeys] using hnd)
    rcases List.mem_cons.mp hf with heq | hmem
    · subst heq
      rw [List.foldl_cons]
      rw [treeFold_loc_frame lines t f.name
        (fun hin => hnd'.2.2 (by simp [nodeLocKeys]) hin)]
      simp only [processNode]
      rw [lookupKey_setKey, if_pos rfl]
    · rw [List.foldl_cons]
      exact ih hmem hnd'.2.1 _

theorem treeFold_method_loc (lines : List String) (tree : List PyNode)
    (C : PyClass) (m : PyFunc) :
    PyNode.clsNode C ∈ tree → PyClassItem.fnItem m ∈ C.body →
    (pyLocKeys tree).Nodup →
    ∀ acc : PyAcc,
      lookupKey (tree.foldl (processNode lines) acc).locations
        (C.name ++ "." ++ m.name) =
        some (find_def_lineno lines m.lineno m.endLineno m.decoratorList) ∧
      lookupKey (tree.foldl (processNode lines) acc).locations m.name =
        some (find_def_lineno lines m.lineno m.endLineno m.decoratorList) := by
  induction tree with
  | nil => intro hc; simp at hc
  | cons n t ih =>
    intro hc hm hnd acc
    have hnd' := List.nodup_append.mp (by simpa [pyLocKeys] using hnd)
    rcases List.mem_cons.mp hc with heq | hmem
    · subst heq
      have hmem2 := mem_bodyLocKeys C.name C.body m hm
      have hndb : (bodyLocKeys C.name C.body).Nodup := by
        have := hnd'.1
        simp only [nodeLocKeys, List.nodup_cons] at this
        exact this.2
      have hbody := bodyFold_method_loc lines C.name C.body m hm hndb
      rw [List.foldl_cons]
      refine ⟨?_, ?_⟩
      · rw [treeFold_loc_frame lines t _
          (fun hin => hnd'.2.2 (by simp [nodeLocKeys, hmem2.1]) hin)]
        simp only [processNode]
        exact (hbody _).1
      · rw [treeFold_loc_frame lines t _
          (fun hin => hnd'.2.2 (by simp [nodeLocKeys, hmem2.2]) hin)]
        simp only [processNode]
        exact (hbody _).2
    · rw [List.foldl_cons]
      exact ih hmem hm hnd'.2.1 _

theorem firstDefLineAux_spec (lines : List String) :
    ∀ (fuel start limit i : Nat),
      firstDefLineAux lines fuel start limit = some i →
      start ≤ i ∧ i < limit ∧ i < lines.length ∧
      defLineMatch (lines.getD i "") = true ∧
      ∀ j, start ≤ j → j < i → defLineMatch (lines.getD j "") = false := by
  intro fuel
  induction fuel with
  | zero =>
    intro start limit i h
    exact absurd h (by simp [firstDefLineAux])
  | succ n ih =>
    intro start limit i h
    unfold firstDefLineAux at h
    by_cases hsl : start < limit
    · rw [if_pos hsl] at h
      by_cases hln : start < lines.length
      · rw [if_pos hln] at h
        by_cases hdm : defLineMatch (lines.getD start "") = true
        · rw [if_pos hdm] at h
          cases h
          exact ⟨Nat.le_refl _, hsl, hln, hdm, fun j hj1 hj2 => absurd hj2 (by omega)⟩
        · rw [if_neg hdm] at h
          have hrec := ih (start + 1) limit i h
          refine ⟨by omega, hrec.2.1, hrec.2.2.1, hrec.2.2.2.1, fun j hj1 hj2 => ?_⟩
          by_cases hjs : j = start
          · subst hjs
            revert hdm
            cases defLineMatch (lines.getD j "") <;> simp
          · exact hrec.2.2.2.2 j (by omega) hj2
      · rw [if_neg hln] at h
        exact absurd h (by simp)
    · rw [if_neg hsl] at h
      exact absurd h (by simp)

theorem firstDefLine_spec (lines : List String) (start limit i : Nat)
    (h : firstDefLine lines start limit = some i) :
    start ≤ i ∧ i < limit ∧ i < lines.length ∧
    defLineMatch (lines.getD i "") = true ∧
    ∀ j, start ≤ j → j < i → defLineMatch (lines.getD j "") = false :=
  firstDefLineAux_spec lines (limit - start) start limit i h

/-- Claim C9.  For every decorated top-level function or method, the
locations entry for the symbol (and, for a method, for its qualified
name) is the value of the decorator-skipping scan: the 1-based line of
the first line in [lineno, end_lineno] matching the def/class keyword
prefix regex, found by scanning forward from the AST-reported line —
in particular, when the AST-reported line is a decorator line that does
not match the keyword regex, the recorded location is not that line. -/
theorem decorated_def_location (lines : List String) (tree : List PyNode) :
    (∀ f, PyNode.fnNode f ∈ tree → (pyLocKeys tree).Nodup →
      lookupKey (pythonParse lines tree).locations f.name =
        some (find_def_lineno lines f.lineno f.endLineno f.decoratorList)) ∧
    (∀ C m, PyNode.clsNode C ∈ tree → PyClassItem.fnItem m ∈ C.body →
      (pyLocKeys tree).Nodup →
      lookupKey (pythonParse lines tree).locations (C.name ++ "." ++ m.name) =
        some (find_def_lineno lines m.lineno m.endLineno m.decoratorList) ∧
      lookupKey (pythonParse lines tree).locations m.name =
        some (find_def_lineno lines m.lineno m.endLineno m.decoratorList)) ∧
    (∀ lineno endLineno (decs : List PyDec) i, decs ≠ [] →
      firstDefLine lines (lineno - 1) endLineno = some i →
      find_def_lineno lines lineno endLineno decs = i + 1 ∧
      lineno - 1 ≤ i ∧
      defLineMatch (lines.getD i "") = true ∧
      (∀ j, lineno - 1 ≤ j → j < i → defLineMatch (lines.getD j "") = false) ∧
      (defLineMatch (lines.getD (lineno - 1) "") = false → i + 1 ≠ lineno)) := by
  refine ⟨fun f hf hnd => treeFold_fn_loc lines tree f hf hnd initPyAcc,
    fun C m hc hm hnd => treeFold_method_loc lines tree C m hc hm hnd initPyAcc,
    fun lineno endLineno decs i hdec hfd => ?_⟩
  have hspec := firstDefLine_spec lines (lineno - 1) endLineno i hfd
  have hval : find_def_lineno lines lineno endLineno decs = i + 1 := by
    unfold find_def_lineno
    rw [if_neg hdec, hfd]
  refine ⟨hval, hspec.1, hspec.2.2.2.1, hspec.2.2.2.2, fun hnm hiplus => ?_⟩
  have hi : i = lineno - 1 := by omega
  rw [hi, hnm] at hspec
  exact absurd hspec.2.2.2.1 (by simp)

theorem decorated_def_location_witness :
    lookupKey (pythonParse c9lines c9tree).locations "g" = some 2 ∧ (2 : Nat) ≠ 1 := by
  have h := decorated_def_location c9lines c9tree
  have h1 := h.1 c9func (by decide) (by decide)
  have h3 := h.2.2 1 3 [PyDec.nameDec "deco"] 1 (by decide) (by decide)
  exact ⟨h1.trans (congrArg some h3.1), by decide⟩

theorem lookup_setKey_cases {α : Type} {m : List (String × α)} {k a : String}
    {v w : α} (h : lookupKey (setKey m k v) a = some w) :
    a = k ∨ lookupKey m a = some w := by
  rw [lookupKey_setKey] at h
  split at h
  · rename_i he
    exact Or.inl he.symm
  · exact Or.inr h

theorem clsLe_refl (c : MClass) : clsLe c c :=
  ⟨rfl, fun _ hm => hm, fun _ hp => hp⟩

theorem mClassReach_mono {c c' : MClass} (hle : clsLe c c') {k : String}
    (hr : mClassReach c k) : mClassReach c' k := by
  obtain ⟨hn, hm, hp⟩ := hle
  unfold mClassReach at hr ⊢
  rcases hr with h | ⟨m, hm2, h⟩ | ⟨p, hp2, h⟩ | ⟨p, hp2, h⟩
  · exact Or.inl (h.trans hn)
  · exact Or.inr (Or.inl ⟨m, hm m hm2, h⟩)
  · exact Or.inr (Or.inr (Or.inl ⟨p, hp p hp2, h⟩))
  · exact Or.inr (Or.inr (Or.inr ⟨p, hp p hp2, h.trans (by rw [hn])⟩))

theorem StReach_mono {s s' : MState} (hle : stLe s s') {k : String}
    (hr : StReach s k) : StReach s' k := by
  rcases hr with h | ⟨c, hc, h⟩
  · exact Or.inl (hle.1 k h)
  · obtain ⟨c', hc', hcle⟩ := hle.2 c hc
    exact Or.inr ⟨c', hc', mClassReach_mono hcle h⟩

theorem stLe_refl (s : MState) : stLe s s :=
  ⟨fun _ hf => hf, fun c hc => ⟨c, hc, clsLe_refl c⟩⟩

theorem stLe_of_parts {s s' : MState} (hf : s.functions = s'.functions)
    (hd : s.done = s'.done) (hc : s.cur = s'.cur) : stLe s s' := by
  refine ⟨fun f hf2 => ?_, fun c hc2 => ⟨c, ?_, clsLe_refl c⟩⟩
  · rw [← hf]
    exact hf2
  · unfold cds at hc2 ⊢
    rw [← hd, ← hc]
    exact hc2

theorem bodyTrackStep_eq_none {lines : List String} {i : Nat} {code : String}
    {st : MState} (h : st.tracker = none) : bodyTrackStep lines i code st = st := by
  unfold bodyTrackStep
  rw [h]

theorem bodyTrackStep_eq_some {lines : List String} {i : Nat} {code : String}
    {st : MState} {t : MTracker} (h : st.tracker = some t) :
    bodyTrackStep lines i code st =
      (if blockOpen code then { st with tracker := some { t with depth := t.depth + 1 } }
       else if code = "end" then
         (if t.depth > 0 then { st with tracker := some { t with depth := t.depth - 1 } }
          else { st with definitions := setKey st.definitions t.name (sliceJoin lines t.start i)
                         tracker := none })
       else st) := by
  unfold bodyTrackStep
  rw [h]

theorem bodyTrackStep_stLe (lines : List String) (i : Nat) (code : String)
    (st : MState) : stLe st (bodyTrackStep lines i code st) := by
  cases htr : st.tracker with
  | none => rw [bodyTrackStep_eq_none htr]; exact stLe_refl st
  | some t =>
    rw [bodyTrackStep_eq_some htr]
    split
    · exact stLe_of_parts rfl rfl rfl
    · split
      · split
        · exact stLe_of_parts rfl rfl rfl
        · exact stLe_of_parts rfl rfl rfl
      · exact stLe_refl st

theorem bodyTrackStep_inv (lines : List String) (i : Nat) (code : String)
    (st : MState) (h : MInv st) : MInv (bodyTrackStep lines i code st) := by
  cases htr : st.tracker with
  | none => rw [bodyTrackStep_eq_none htr]; exact h
  | some t =>
    rw [bodyTrackStep_eq_some htr]
    split
    · exact ⟨h.1, h.2.1, h.2.2.1, fun t' ht' => by
        cases ht'
        exact h.2.2.2 t htr⟩
    · split
      · split
        · exact ⟨h.1, h.2.1, h.2.2.1, fun t' ht' => by
            cases ht'
            exact h.2.2.2 t htr⟩
        · refine ⟨h.1, fun k v hk => ?_, h.2.2.1, fun t' ht' => by cases ht'⟩
          rcases lookup_setKey_cases hk with rfl | hold
          · exact h.2.2.2 t htr
          · exact h.2.1 k v hold
      · exact h

theorem methodStep_stLe (i : Nat) (code : String) (c : MCur) (fullName : String)
    (st : MState) (hcur : st.cur = some c) :
    stLe st (methodStep i code c fullName st) := by
  refine ⟨fun f hf => hf, fun c2 hc2 => ?_⟩
  unfold cds at hc2
  rw [hcur] at hc2
  rcases List.mem_append.mp hc2 with hdone | hcur2
  · exact ⟨c2, List.mem_append_left _ hdone, clsLe_refl c2⟩
  · have hc2e : c2 = c.info := by simpa [curList] using hcur2
    subst hc2e
    refine ⟨{ c.info with methods := c.info.methods ++ [methodEntry code fullName] },
      List.mem_append_right _ (by simp [curList, methodStep]), ?_⟩
    exact ⟨rfl, fun m hm => List.mem_append_left _ hm, fun p hp => hp⟩

theorem methodStep_inv (i : Nat) (code : String) (c : MCur) (fullName : String)
    (st : MState) (hcur : st.cur = some c) (h : MInv st) :
    MInv (methodStep i code c fullName st) := by
  have hle := methodStep_stLe i code c fullName st hcur
  have hreach : StReach (methodStep i code c fullName st) fullName := by
    right
    refine ⟨{ c.info with methods := c.info.methods ++ [methodEntry code fullName] },
      List.mem_append_right _ (by simp [curList, methodStep]), ?_⟩
    right
    left
    refine ⟨methodEntry code fullName, List.mem_append_right _ (List.mem_singleton_self _), ?_⟩
    unfold methodEntry
    split <;> rfl
  refine ⟨fun k v hk => ?_, fun k v hk => ?_, fun k v hk => ?_, fun t' ht' => ?_⟩
  · rcases lookup_setKey_cases hk with rfl | hold
    · exact hreach
    · exact StReach_mono hle (h.1 k v hold)
  · exact StReach_mono hle (h.2.1 k v hk)
  · rcases lookup_setKey_cases hk with rfl | hold
    · exact hreach
    · exact StReach_mono hle (h.2.2.1 k v hold)
  · cases ht'
    exact hreach

theorem propLineStep_eq_none {i : Nat} {code : String} {c : MCur} {st : MState}
    (hp : leadingIdent code = none) : propLineStep i code c st = st := by
  unfold propLineStep
  rw [hp]

theorem propLineStep_eq_some {i : Nat} {code p : String} {c : MCur} {st : MState}
    (hp : leadingIdent code = some p) :
    propLineStep i code c st =
      (if lowerStr p ∈ mKeywordList then st
       else if p ∈ c.info.properties.map MProp.name then st
       else
        { st with
            cur := some { c with info := { c.info with properties :=
              c.info.properties ++ [{ name := p, attributes := [] }] } }
            locations := setKey (setKey st.locations (c.info.name ++ "." ++ p) (i + 1)) p (i + 1)
            allProps := insertStr p st.allProps }) := by
  unfold propLineStep
  rw [hp]

theorem propLineStep_eq_kw {i : Nat} {code p : String} {c : MCur} {st : MState}
    (hp : leadingIdent code = some p) (hkw : lowerStr p ∈ mKeywordList) :
    propLineStep i code c st = st := by
  rw [propLineStep_eq_some hp, if_pos hkw]

theorem propLineStep_eq_dup {i : Nat} {code p : String} {c : MCur} {st : MState}
    (hp : leadingIdent code = some p) (hkw : lowerStr p ∉ mKeywordList)
    (hdup : p ∈ c.info.properties.map MProp.name) :
    propLineStep i code c st = st := by
  rw [propLineStep_eq_some hp, if_neg hkw, if_pos hdup]

theorem propLineStep_eq_add {i : Nat} {code p : String} {c : MCur} {st : MState}
    (hp : leadingIdent code = some p) (hkw : lowerStr p ∉ mKeywordList)
    (hdup : p ∉ c.info.properties.map MProp.name) :
    propLineStep i code c st =
      { st with
          cur := some { c with info := { c.info with properties :=
            c.info.properties ++ [{ name := p, attributes := [] }] } }
          locations := setKey (setKey st.locations (c.info.name ++ "." ++ p) (i + 1)) p (i + 1)
          allProps := insertStr p st.allProps } := by
  rw [propLineStep_eq_some hp, if_neg hkw, if_neg hdup]

theorem propAdd_stLe (i : Nat) (p : String) (c : MCur) (st : MState)
    (hcur : st.cur = some c) :
    stLe st
      { st with
          cur := some { c with info := { c.info with properties :=
            c.info.properties ++ [{ name := p, attributes := [] }] } }
          locations := setKey (setKey st.locations (c.info.name ++ "." ++ p) (i + 1)) p (i + 1)
          allProps := insertStr p st.allProps } := by
  refine ⟨fun f hf => hf, fun c2 hc2 => ?_⟩
  unfold cds at hc2
  rw [hcur] at hc2
  rcases List.mem_append.mp hc2 with hdone | hcur2
  · exact ⟨c2, List.mem_append_left _ hdone, clsLe_refl c2⟩
  · have hc2e : c2 = c.info := by simpa [curList] using hcur2
    subst hc2e
    refine ⟨{ c.info with properties :=
        c.info.properties ++ [{ name := p, attributes := [] }] },
      List.mem_append_right _ (by simp [curList]), ?_⟩
    exact ⟨rfl, fun m hm => hm, fun q hq => List.mem_append_left _ hq⟩

theorem propLineStep_stLe (i : Nat) (code : String) (c : MCur) (st : MState)
    (hcur : st.cur = some c) : stLe st (propLineStep i code c st) := by
  cases hp : leadingIdent code with
  | none => rw [propLineStep_eq_none hp]; exact stLe_refl st
  | some p =>
    by_cases hkw : lowerStr p ∈ mKeywordList
    · rw [propLineStep_eq_kw hp hkw]; exact stLe_refl st
    · by_cases hdup : p ∈ c.info.properties.map MProp.name
      · rw [propLineStep_eq_dup hp hkw hdup]; exact stLe_refl st
      · rw [propLineStep_eq_add hp hkw hdup]
        exact propAdd_stLe i p c st hcur

theorem propLineStep_inv (i : Nat) (code : String) (c : MCur) (st : MState)
    (hcur : st.cur = some c) (h : MInv st) : MInv (propLineStep i code c st) := by
  cases hp : leadingIdent code with
  | none => rw [propLineStep_eq_none hp]; exact h
  | some p =>
    by_cases hkw : lowerStr p ∈ mKeywordList
    · rw [propLineStep_eq_kw hp hkw]; exact h
    · by_cases hdup : p ∈ c.info.properties.map MProp.name
      · rw [propLineStep_eq_dup hp hkw hdup]; exact h
      · rw [propLineStep_eq_add hp hkw hdup]
        have hle := propAdd_stLe i p c st hcur
        have hext : { c.info with properties :=
            c.info.properties ++ [{ name := p, attributes := [] }] } ∈
            cds { st with
              cur := some { c with info := { c.info with properties :=
                c.info.properties ++ [{ name := p, attributes := [] }] } }
              locations := setKey (setKey st.locations (c.info.name ++ "." ++ p) (i + 1)) p (i + 1)
              allProps := insertStr p st.allProps } :=
          List.mem_append_right _ (by simp [curList])
        refine ⟨fun k v hk => StReach_mono hle (h.1 k v hk),
          fun k v hk => StReach_mono hle (h.2.1 k v hk),
          fun k v hk => ?_,
          fun t' ht' => StReach_mono hle (h.2.2.2 t' ht')⟩
        rcases lookup_setKey_cases hk with rfl | hold
        · right
          exact ⟨_, hext, Or.inr (Or.inr (Or.inl
            ⟨_, List.mem_append_right _ (List.mem_singleton_self _), rfl⟩))⟩
        · rcases lookup_setKey_cases hold with rfl | hold2
          · right
            exact ⟨_, hext, Or.inr (Or.inr (Or.inr
              ⟨_, List.mem_append_right _ (List.mem_singleton_self _), rfl⟩))⟩
          · exact StReach_mono hle (h.2.2.1 k v hold2)

theorem clsLe_trans {a b c : MClass} (h1 : clsLe a b) (h2 : clsLe b c) : clsLe a c :=
  ⟨h1.1.trans h2.1, fun m hm => h2.2.1 m (h1.2.1 m hm), fun p hp => h2.2.2 p (h1.2.2 p hp)⟩

theorem stLe_trans {a b c : MState} (h1 : stLe a b) (h2 : stLe b c) : stLe a c := by
  refine ⟨fun f hf => h2.1 f (h1.1 f hf), fun cl hcl => ?_⟩
  obtain ⟨cl', hcl', hle'⟩ := h1.2 cl hcl
  obtain ⟨cl'', hcl'', hle''⟩ := h2.2 cl' hcl'
  exact ⟨cl'', hcl'', clsLe_trans hle' hle''⟩

theorem mlineStep_eq_classdef {i indent : Nat} {code cname : String} {st : MState}
    (hcd : classdefName code = some cname) :
    mlineStep i indent code st =
      { st with
          done := st.done ++ (st.cur.map MCur.info).toList
          cur := some { info := { name := cname, properties := [], methods := [] }
                        indent := indent }
          signatures := setKey st.signatures cname code
          locations := setKey st.locations cname (i + 1) } := by
  unfold mlineStep
  rw [hcd]

theorem mlineStep_eq_nocls_fn {i indent : Nat} {code f : String} {st : MState}
    (hcd : classdefName code = none) (hcur : st.cur = none)
    (hfn : functionName code = some f) :
    mlineStep i indent code st =
      { st with
          functions := st.functions ++ [f]
          signatures := setKey st.signatures f code
          locations := setKey st.locations f (i + 1)
          tracker := some { start := i, name := f, depth := 0 }
          allMethods := insertStr f st.allMethods } := by
  unfold mlineStep
  rw [hcd, hcur, hfn]

theorem mlineStep_eq_nocls_nofn {i indent : Nat} {code : String} {st : MState}
    (hcd : classdefName code = none) (hcur : st.cur = none)
    (hfn : functionName code = none) :
    mlineStep i indent code st = st := by
  unfold mlineStep
  rw [hcd, hcur, hfn]

theorem mlineStep_eq_inclass {i indent : Nat} {code : String} {c : MCur} {st : MState}
    (hcd : classdefName code = none) (hcur : st.cur = some c) :
    mlineStep i indent code st =
      (if code = "end" && decide (indent ≤ c.indent) then
        { st with done := st.done ++ [c.info], cur := none, inProps := none }
       else if propBlockOpen code then { st with inProps := some indent }
       else if (match st.inProps with
                | some pi => code = "end" && decide (indent ≤ pi)
                | none => false) then { st with inProps := none }
       else if methodsBlockOpen code then { st with inProps := none }
       else
        match functionName code with
        | some fullName => methodStep i code c fullName st
        | none =>
          match st.inProps with
          | some _ => propLineStep i code c st
          | none => st) := by
  unfold mlineStep
  rw [hcd, hcur]

theorem classdefAdd_stLe (i indent : Nat) (code cname : String) (st : MState) :
    stLe st
      { st with
          done := st.done ++ (st.cur.map MCur.info).toList
          cur := some { info := { name := cname, properties := [], methods := [] }
                        indent := indent }
          signatures := setKey st.signatures cname code
          locations := setKey st.locations cname (i + 1) } := by
  refine ⟨fun f hf => hf, fun c2 hc2 => ⟨c2, ?_, clsLe_refl c2⟩⟩
  unfold cds at hc2 ⊢
  exact List.mem_append_left _ hc2

theorem classEnd_stLe (c : MCur) (st : MState) (hcur : st.cur = some c) :
    stLe st { st with done := st.done ++ [c.info], cur := none, inProps := none } := by
  refine ⟨fun f hf => hf, fun c2 hc2 => ⟨c2, ?_, clsLe_refl c2⟩⟩
  unfold cds at hc2 ⊢
  rw [hcur] at hc2
  rcases List.mem_append.mp hc2 with h1 | h2
  · exact List.mem_append_left _ (List.mem_append_left _ h1)
  · have h3 : c2 = c.info := by simpa [curList] using h2
    subst h3
    exact List.mem_append_left _ (List.mem_append_right _ (List.mem_singleton_self _))

theorem mlineStep_stLe (i indent : Nat) (code : String) (st : MState) :
    stLe st (mlineStep i indent code st) := by
  cases hcd : classdefName code with
  | some cname =>
    rw [mlineStep_eq_classdef hcd]
    exact classdefAdd_stLe i indent code cname st
  | none =>
    cases hcur : st.cur with
    | none =>
      cases hfn : functionName code with
      | some f =>
        rw [mlineStep_eq_nocls_fn hcd hcur hfn]
        exact ⟨fun g hg => List.mem_append_left _ hg, fun c2 hc2 => ⟨c2, hc2, clsLe_refl c2⟩⟩
      | none =>
        rw [mlineStep_eq_nocls_nofn hcd hcur hfn]
        exact stLe_refl st
    | some c =>
      rw [mlineStep_eq_inclass hcd hcur]
      split
      · exact classEnd_stLe c st hcur
      · split
        · exact stLe_of_parts rfl rfl rfl
        · split
          · exact stLe_of_parts rfl rfl rfl
          · split
            · exact stLe_of_parts rfl rfl rfl
            · cases hfn : functionName code with
              | some fullName => exact methodStep_stLe i code c fullName st hcur
              | none =>
                cases hip : st.inProps with
                | some pi => exact propLineStep_stLe i code c st hcur
                | none => exact stLe_refl st

theorem mlineStep_inv (i indent : Nat) (code : String) (st : MState)
    (h : MInv st) : MInv (mlineStep i indent code st) := by
  cases hcd : classdefName code with
  | some cname =>
    rw [mlineStep_eq_classdef hcd]
    have hle := classdefAdd_stLe i indent code cname st
    have hreach : StReach
        { st with
            done := st.done ++ (st.cur.map MCur.info).toList
            cur := some { info := { name := cname, properties := [], methods := [] }
                          indent := indent }
            signatures := setKey st.signatures cname code
            locations := setKey st.locations cname (i + 1) } cname := by
      right
      refine ⟨{ name := cname, properties := [], methods := [] }, ?_, Or.inl rfl⟩
      unfold cds
      exact List.mem_append_right _ (by simp [curList])
    refine ⟨fun k v hk => ?_, fun k v hk => StReach_mono hle (h.2.1 k v hk),
      fun k v hk => ?_, fun t' ht' => StReach_mono hle (h.2.2.2 t' ht')⟩
    · rcases lookup_setKey_cases hk with rfl | hold
      · exact hreach
      · exact StReach_mono hle (h.1 k v hold)
    · rcases lookup_setKey_cases hk with rfl | hold
      · exact hreach
      · exact StReach_mono hle (h.2.2.1 k v hold)
  | none =>
    cases hcur : st.cur with
    | none =>
      cases hfn : functionName code with
      | some f =>
        rw [mlineStep_eq_nocls_fn hcd hcur hfn]
        have hle : stLe st
            { st with
                functions := st.functions ++ [f]
                signatures := setKey st.signatures f code
                locations := setKey st.locations f (i + 1)
                tracker := some { start := i, name := f, depth := 0 }
                allMethods := insertStr f st.allMethods } :=
          ⟨fun g hg => List.mem_append_left _ hg, fun c2 hc2 => ⟨c2, hc2, clsLe_refl c2⟩⟩
        have hreach : StReach
            { st with
                functions := st.functions ++ [f]
                signatures := setKey st.signatures f code
                locations := setKey st.locations f (i + 1)
                tracker := some { start := i, name := f, depth := 0 }
                allMethods := insertStr f st.allMethods } f :=
          Or.inl (List.mem_append_right _ (List.mem_singleton_self _))
        refine ⟨fun k v hk => ?_, fun k v hk => StReach_mono hle (h.2.1 k v hk),
          fun k v hk => ?_, fun t' ht' => ?_⟩
        · rcases lookup_setKey_cases hk with rfl | hold
          · exact hreach
          · exact StReach_mono hle (h.1 k v hold)
        · rcases lookup_setKey_cases hk with rfl | hold
          · exact hreach
          · exact StReach_mono hle (h.2.2.1 k v hold)
        · cases ht'
          exact hreach
      | none =>
        rw [mlineStep_eq_nocls_nofn hcd hcur hfn]
        exact h
    | some c =>
      rw [mlineStep_eq_inclass hcd hcur]
      split
      · have hle := classEnd_stLe c st hcur
        exact ⟨fun k v hk => StReach_mono hle (h.1 k v hk),
          fun k v hk => StReach_mono hle (h.2.1 k v hk),
          fun k v hk => StReach_mono hle (h.2.2.1 k v hk),
          fun t' ht' => StReach_mono hle (h.2.2.2 t' ht')⟩
      · split
        · exact ⟨h.1, h.2.1, h.2.2.1, h.2.2.2⟩
        · split
          · exact ⟨h.1, h.2.1, h.2.2.1, h.2.2.2⟩
          · split
            · exact ⟨h.1, h.2.1, h.2.2.1, h.2.2.2⟩
            · cases hfn : functionName code with
              | some fullName => exact methodStep_inv i code c fullName st hcur h
              | none =>
                cases hip : st.inProps with
                | some pi => exact propLineStep_inv i code c st hcur h
                | none => exact h

theorem mstep_stLe (lines : List String) (st : MState) (i : Nat) (raw : String) :
    stLe st (mstep lines st i raw) := by
  unfold mstep
  cases hlc : lineCode raw with
  | none => exact stLe_refl st
  | some p =>
    exact stLe_trans (bodyTrackStep_stLe lines i p.2 st)
      (mlineStep_stLe i p.1 p.2 (bodyTrackStep lines i p.2 st))

theorem mstep_inv (lines : List String) (st : MState) (i : Nat) (raw : String)
    (h : MInv st) : MInv (mstep lines st i raw) := by
  unfold mstep
  cases hlc : lineCode raw with
  | none => exact h
  | some p =>
    exact mlineStep_inv i p.1 p.2 (bodyTrackStep lines i p.2 st)
      (bodyTrackStep_inv lines i p.2 st h)

theorem mrun_inv (lines : List String) : MInv (mrun lines) := by
  unfold mrun
  have hinit : MInv initMState := by
    refine ⟨fun k v hk => ?_, fun k v hk => ?_, fun k v hk => ?_, fun t ht => ?_⟩
    · simp [initMState, lookupKey] at hk
    · simp [initMState, lookupKey] at hk
    · simp [initMState, lookupKey] at hk
    · simp [initMState] at ht
  generalize initMState = st0 at hinit ⊢
  induction lines.enum generalizing st0 with
  | nil => exact hinit
  | cons p t ih =>
    rw [List.foldl_cons]
    exact ih _ (mstep_inv lines st0 p.1 p.2 hinit)

theorem pyCiLe_refl (c : PyClassInfo) : pyCiLe c c :=
  ⟨rfl, fun _ hm => hm, fun _ hp => hp⟩

theorem pyClassReach_mono {c c' : PyClassInfo} (hle : pyCiLe c c') {k : String}
    (hr : pyClassReach c k) : pyClassReach c' k := by
  obtain ⟨hn, hm, hp⟩ := hle
  unfold pyClassReach at hr ⊢
  rcases hr with h | ⟨m, hm2, h⟩ | ⟨p, hp2, h⟩
  · exact Or.inl (h.trans hn)
  · exact Or.inr (Or.inl ⟨m, hm m hm2, by rwa [← hn]⟩)
  · exact Or.inr (Or.inr ⟨p, hp p hp2, by rwa [← hn]⟩)

theorem PyReach_mono_fields {acc acc' : PyAcc} {k : String}
    (hr : PyReach acc k)
    (hf : ∀ x ∈ acc.functions, x ∈ acc'.functions)
    (hc : ∀ x ∈ acc.classes, x ∈ acc'.classes)
    (hd : ∀ c ∈ acc.classDetails, ∃ c' ∈ acc'.classDetails, pyCiLe c c') :
    PyReach acc' k := by
  rcases hr with h | h | ⟨c, hcm, h⟩
  · exact Or.inl (hf k h)
  · exact Or.inr (Or.inl (hc k h))
  · obtain ⟨c', hc', hle⟩ := hd c hcm
    exact Or.inr (Or.inr ⟨c', hc', pyClassReach_mono hle h⟩)

theorem PyReach_withCls_grow {acc : PyAcc} {ci ci' : PyClassInfo} {k : String}
    (hle : pyCiLe ci ci') (hr : PyReach (withCls acc ci) k) :
    PyReach (withCls acc ci') k := by
  refine PyReach_mono_fields hr (fun x hx => hx) (fun x hx => hx) (fun c hcm => ?_)
  rcases List.mem_append.mp hcm with h1 | h2
  · exact ⟨c, List.mem_append_left _ h1, pyCiLe_refl c⟩
  · have : c = ci := by simpa using h2
    subst this
    exact ⟨ci', List.mem_append_right _ (List.mem_singleton_self _), hle⟩

theorem processTarget_inv (cname : String) (lineno : Nat)
    (acc : PyAcc × PyClassInfo) (t : PyTarget)
    (hname : acc.2.name = cname) (h : PyInv (withCls acc.1 acc.2)) :
    PyInv (withCls (processTarget cname lineno acc t).1
      (processTarget cname lineno acc t).2) ∧
    (processTarget cname lineno acc t).2.name = cname := by
  cases t with
  | otherT => exact ⟨h, hname⟩
  | nameT x =>
    simp only [processTarget]
    have hle : pyCiLe acc.2
        { acc.2 with properties := acc.2.properties ++ [{ name := x, attributes := [] }] } :=
      ⟨rfl, fun m hm => hm, fun p hp => List.mem_append_left _ hp⟩
    have hext : { acc.2 with properties :=
        acc.2.properties ++ [{ name := x, attributes := [] }] } ∈
        acc.1.classDetails ++
          [{ acc.2 with properties := acc.2.properties ++ [{ name := x, attributes := [] }] }] :=
      List.mem_append_right _ (List.mem_singleton_self _)
    refine ⟨⟨fun k v hk => PyReach_withCls_grow hle (h.1 k v hk),
      fun k v hk => PyReach_withCls_grow hle (h.2.1 k v hk),
      fun k v hk => ?_⟩, hname⟩
    rcases lookup_setKey_cases hk with rfl | hold
    · right
      right
      exact ⟨_, hext, Or.inr (Or.inr
        ⟨_, List.mem_append_right _ (List.mem_singleton_self _), Or.inl rfl⟩)⟩
    · rcases lookup_setKey_cases hold with rfl | hold2
      · right
        right
        refine ⟨_, hext, Or.inr (Or.inr
          ⟨{ name := x, attributes := [] },
           List.mem_append_right _ (List.mem_singleton_self _), Or.inr ?_⟩)⟩
        rw [hname]
      · exact PyReach_withCls_grow hle (h.2.2 k v hold2)

theorem targetsFold_inv (cname : String) (lineno : Nat) (targets : List PyTarget) :
    ∀ acc : PyAcc × PyClassInfo, acc.2.name = cname →
      PyInv (withCls acc.1 acc.2) →
      PyInv (withCls (targets.foldl (processTarget cname lineno) acc).1
        (targets.foldl (processTarget cname lineno) acc).2) ∧
      (targets.foldl (processTarget cname lineno) acc).2.name = cname := by
  induction targets with
  | nil => intro acc hname h; exact ⟨h, hname⟩
  | cons t ts ih =>
    intro acc hname h
    rw [List.foldl_cons]
    have step := processTarget_inv cname lineno acc t hname h
    exact ih _ step.2 step.1

theorem processClassItem_inv (lines : List String) (cname : String)
    (acc : PyAcc × PyClassInfo) (it : PyClassItem)
    (hname : acc.2.name = cname) (h : PyInv (withCls acc.1 acc.2)) :
    PyInv (withCls (processClassItem lines cname acc it).1
      (processClassItem lines cname acc it).2) ∧
    (processClassItem lines cname acc it).2.name = cname := by
  cases it with
  | otherItem => exact ⟨h, hname⟩
  | assignItem targets lineno =>
    simp only [processClassItem]
    exact targetsFold_inv cname lineno targets acc hname h
  | fnItem m =>
    simp only [processClassItem]
    have hle : pyCiLe acc.2
        { acc.2 with methods := acc.2.methods ++
          [{ name := m.name, attributes := get_decorators m.decoratorList
             signature := get_signature m }] } :=
      ⟨rfl, fun m2 hm => List.mem_append_left _ hm, fun p hp => hp⟩
    have hext : { acc.2 with methods := acc.2.methods ++
        [{ name := m.name, attributes := get_decorators m.decoratorList
           signature := get_signature m }] } ∈
        acc.1.classDetails ++
          [{ acc.2 with methods := acc.2.methods ++
            [{ name := m.name, attributes := get_decorators m.decoratorList
               signature := get_signature m }] }] :=
      List.mem_append_right _ (List.mem_singleton_self _)
    have hbare : PyReach (withCls
        { acc.1 with
            signatures := setKey acc.1.signatures m.name (get_signature m)
            definitions := setKey (setKey acc.1.definitions m.name (funcSource lines m))
              (cname ++ "." ++ m.name) (funcSource lines m)
            locations := setKey
              (setKey acc.1.locations (cname ++ "." ++ m.name)
                (find_def_lineno lines m.lineno m.endLineno m.decoratorList)) m.name
              (find_def_lineno lines m.lineno m.endLineno m.decoratorList) }
        { acc.2 with methods := acc.2.methods ++
          [{ name := m.name, attributes := get_decorators m.decoratorList
             signature := get_signature m }] }) m.name := by
      right
      right
      exact ⟨_, hext, Or.inr (Or.inl
        ⟨_, List.mem_append_right _ (List.mem_singleton_self _), Or.inl rfl⟩)⟩
    have hqual : PyReach (withCls
        { acc.1 with
            signatures := setKey acc.1.signatures m.name (get_signature m)
            definitions := setKey (setKey acc.1.definitions m.name (funcSource lines m))
              (cname ++ "." ++ m.name) (funcSource lines m)
            locations := setKey
              (setKey acc.1.locations (cname ++ "." ++ m.name)
                (find_def_lineno lines m.lineno m.endLineno m.decoratorList)) m.name
              (find_def_lineno lines m.lineno m.endLineno m.decoratorList) }
        { acc.2 with methods := acc.2.methods ++
          [{ name := m.name, attributes := get_decorators m.decoratorList
             signature := get_signature m }] }) (cname ++ "." ++ m.name) := by
      right
      right
      refine ⟨_, hext, Or.inr (Or.inl
        ⟨{ name := m.name, attributes := get_decorators m.decoratorList
           signature := get_signature m },
         List.mem_append_right _ (List.mem_singleton_self _), Or.inr ?_⟩)⟩
      rw [hname]
    refine ⟨⟨fun k v hk => ?_, fun k v hk => ?_, fun k v hk => ?_⟩, hname⟩
    · rcases lookup_setKey_cases hk with rfl | hold
      · exact hbare
      · exact PyReach_withCls_grow hle (h.1 k v hold)
    · rcases lookup_setKey_cases hk with rfl | hold
      · exact hqual
      · rcases lookup_setKey_cases hold with rfl | hold2
        · exact hbare
        · exact PyReach_withCls_grow hle (h.2.1 k v hold2)
    · rcases lookup_setKey_cases hk with rfl | hold
      · exact hbare
      · rcases lookup_setKey_cases hold with rfl | hold2
        · exact hqual
        · exact PyReach_withCls_grow hle (h.2.2 k v hold2)

theorem classBodyFold_inv (lines : List String) (cname : String)
    (body : List PyClassItem) :
    ∀ acc : PyAcc × PyClassInfo, acc.2.name = cname →
      PyInv (withCls acc.1 acc.2) →
      PyInv (withCls (body.foldl (processClassItem lines cname) acc).1
        (body.foldl (processClassItem lines cname) acc).2) ∧
      (body.foldl (processClassItem lines cname) acc).2.name = cname := by
  induction body with
  | nil => intro acc hname h; exact ⟨h, hname⟩
  | cons it rest ih =>
    intro acc hname h
    rw [List.foldl_cons]
    have step := processClassItem_inv lines cname acc it hname h
    exact ih _ step.2 step.1

theorem processNode_inv (lines : List String) (acc : PyAcc) (node : PyNode)
    (h : PyInv acc) : PyInv (processNode lines acc node) := by
  cases node with
  | otherNode => exact h
  | fnNode f =>
    simp only [processNode]
    have hmono : ∀ k, PyReach acc k → PyReach
        { acc with
            functions := acc.functions ++ [f.name]
            signatures := setKey acc.signatures f.name (get_signature f)
            definitions := setKey acc.definitions f.name (funcSource lines f)
            locations := setKey acc.locations f.name
              (find_def_lineno lines f.lineno f.endLineno f.decoratorList) } k :=
      fun k hr => PyReach_mono_fields hr (fun x hx => List.mem_append_left _ hx)
        (fun x hx => hx) (fun c hc => ⟨c, hc, pyCiLe_refl c⟩)
    have hreach : PyReach
        { acc with
            functions := acc.functions ++ [f.name]
            signatures := setKey acc.signatures f.name (get_signature f)
            definitions := setKey acc.definitions f.name (funcSource lines f)
            locations := setKey acc.locations f.name
              (find_def_lineno lines f.lineno f.endLineno f.decoratorList) } f.name :=
      Or.inl (List.mem_append_right _ (List.mem_singleton_self _))
    refine ⟨fun k v hk => ?_, fun k v hk => ?_, fun k v hk => ?_⟩
    · rcases lookup_setKey_cases hk with rfl | hold
      · exact hreach
      · exact hmono k (h.1 k v hold)
    · rcases lookup_setKey_cases hk with rfl | hold
      · exact hreach
      · exact hmono k (h.2.1 k v hold)
    · rcases lookup_setKey_cases hk with rfl | hold
      · exact hreach
      · exact hmono k (h.2.2 k v hold)
  | clsNode c =>
    simp only [processNode]
    have hinner : PyInv (withCls
        { acc with
            classes := acc.classes ++ [c.name]
            locations := setKey acc.locations c.name
              (find_def_lineno lines c.lineno c.endLineno c.decoratorList) }
        { name := c.name, properties := [], methods := [] }) := by
      have hmono : ∀ k, PyReach acc k → PyReach (withCls
          { acc with
              classes := acc.classes ++ [c.name]
              locations := setKey acc.locations c.name
                (find_def_lineno lines c.lineno c.endLineno c.decoratorList) }
          { name := c.name, properties := [], methods := [] }) k :=
        fun k hr => PyReach_mono_fields hr (fun x hx => hx)
          (fun x hx => List.mem_append_left _ hx)
          (fun c2 hc2 => ⟨c2, List.mem_append_left _ hc2, pyCiLe_refl c2⟩)
      have hreach : PyReach (withCls
          { acc with
              classes := acc.classes ++ [c.name]
              locations := setKey acc.locations c.name
                (find_def_lineno lines c.lineno c.endLineno c.decoratorList) }
          { name := c.name, properties := [], methods := [] }) c.name :=
        Or.inr (Or.inl (List.mem_append_right _ (List.mem_singleton_self _)))
      refine ⟨fun k v hk => hmono k (h.1 k v hk),
        fun k v hk => hmono k (h.2.1 k v hk), fun k v hk => ?_⟩
      rcases lookup_setKey_cases hk with rfl | hold
      · exact hreach
      · exact hmono k (h.2.2 k v hold)
    exact (classBodyFold_inv lines c.name c.body _ rfl hinner).1

theorem pythonParse_inv (lines : List String) (tree : List PyNode) :
    PyInv (pythonParse lines tree) := by
  unfold pythonParse
  have hinit : PyInv initPyAcc := by
    refine ⟨fun k v hk => ?_, fun k v hk => ?_, fun k v hk => ?_⟩
    · simp [initPyAcc, lookupKey] at hk
    · simp [initPyAcc, lookupKey] at hk
    · simp [initPyAcc, lookupKey] at hk
  generalize initPyAcc = acc0 at hinit ⊢
  induction tree generalizing acc0 with
  | nil => exact hinit
  | cons n t ih =>
    rw [List.foldl_cons]
    exact ih _ (processNode_inv lines acc0 n hinit)

theorem setKeyFold_keys {α : Type} (l : List (String × α)) :
    ∀ (m0 : List (String × α)) (k : String) (v : α),
      lookupKey (l.foldl (fun m p => setKey m p.1 p.2) m0) k = some v →
      k ∈ l.map Prod.fst ∨ ∃ w, lookupKey m0 k = some w := by
  induction l with
  | nil => intro m0 k v h; exact Or.inr ⟨v, h⟩
  | cons p t ih =>
    intro m0 k v h
    rw [List.foldl_cons] at h
    rcases ih _ k v h with hm | ⟨w, hw⟩
    · exact Or.inl (List.mem_cons_of_mem _ hm)
    · rcases lookup_setKey_cases hw with rfl | hold
      · exact Or.inl (List.mem_cons_self _ _)
      · exact Or.inr ⟨w, hold⟩

theorem cpp_sig_reach (content : String) (k v : String)
    (h : lookupKey (cppParse content).signatures k = some v) :
    k ∈ (cppParse content).classes ∨ k ∈ (cppParse content).functions := by
  simp only [cppParse] at h ⊢
  rcases setKeyFold_keys _ _ k v h with hm | ⟨w, hw⟩
  · exact Or.inr hm
  · rcases setKeyFold_keys _ _ k w hw with hm2 | ⟨w2, hw2⟩
    · exact Or.inl hm2
    · simp [lookupKey] at hw2

/-- Counterexample to claim C3 as stated: the block-structured analyzer
of the file classdef A / end records the signature key "A", but "A" is
reachable only as the classDetails entry NAME — the classes list is
always empty for this analyzer and A has no methods — so the key is not
reachable via functions, classes, or classDetails methods as the claim
requires. -/
theorem invariant_counterexample :
    lookupKey (matlabParse ["classdef A", "end"]).signatures "A" = some "classdef A" ∧
    (matlabParse ["classdef A", "end"]).classes = [] ∧
    ¬ ClaimReach (matlabParse ["classdef A", "end"]) "A" := by
  decide

/-- Claim C3, amended.  For every input and each analyzer, every key of
the signatures, definitions and locations mappings refers to a name
reachable via the functions sequence, the classes sequence, or the
classDetails entries — including, beyond what the claim lists, the
classDetails entry NAMES and PROPERTY names (bare or in qualified
Class.member form), which the key sets of both the Python-like and the
block-structured analyzers use. -/
theorem key_reachability_invariant :
    (∀ (lines : List String) (k : String),
      ((∃ v, lookupKey (matlabParse lines).signatures k = some v) ∨
       (∃ v, lookupKey (matlabParse lines).definitions k = some v) ∨
       (∃ v, lookupKey (matlabParse lines).locations k = some v)) →
      MDocReach (matlabParse lines) k) ∧
    (∀ (lines : List String) (tree : List PyNode) (k : String),
      ((∃ v, lookupKey (pythonParse lines tree).signatures k = some v) ∨
       (∃ v, lookupKey (pythonParse lines tree).definitions k = some v) ∨
       (∃ v, lookupKey (pythonParse lines tree).locations k = some v)) →
      PyReach (pythonParse lines tree) k) ∧
    (∀ (content : String) (k : String),
      (∃ v, lookupKey (cppParse content).signatures k = some v) →
      k ∈ (cppParse content).classes ∨ k ∈ (cppParse content).functions) := by
  refine ⟨fun lines k h => ?_, fun lines tree k h => ?_, fun content k h => ?_⟩
  · have hinv := mrun_inv lines
    have hs : StReach (mrun lines) k := by
      rcases h with ⟨v, hv⟩ | ⟨v, hv⟩ | ⟨v, hv⟩
      · exact hinv.1 k v hv
      · exact hinv.2.1 k v hv
      · exact hinv.2.2.1 k v hv
    rcases hs with h1 | ⟨c, hc, hr⟩
    · exact Or.inl h1
    · exact Or.inr (Or.inr ⟨c, hc, hr⟩)
  · have hinv := pythonParse_inv lines tree
    rcases h with ⟨v, hv⟩ | ⟨v, hv⟩ | ⟨v, hv⟩
    · exact hinv.1 k v hv
    · exact hinv.2.1 k v hv
    · exact hinv.2.2 k v hv
  · obtain ⟨v, hv⟩ := h
    exact cpp_sig_reach content k v hv

theorem key_reachability_invariant_witness :
    MDocReach (matlabParse ["classdef A", "end"]) "A" :=
  key_reachability_invariant.1 ["classdef A", "end"] "A"
    (Or.inl ⟨"classdef A", by decide⟩)

end CodeMap
